import Mathlib

/-!
Verification development for the srdb B-tree (src/main.rs).

The Rust code is embedded shallowly:
  * a `Node<T>` becomes the inductive `Node α` below, a `BTree<T>` the
    structure `BTree α`;
  * every operation that can panic in Rust (vector indexing out of bounds,
    `unwrap` on `None`, `Vec::remove` / `Vec::insert` / `split_off` out of
    range, and `usize` subtraction overflow in a debug build) is modelled as
    an `Option`-valued function, with `none` standing for the panic;
  * `usize` subtraction is modelled by `checkedSub` (underflow is `none`):
    for the subtractions appearing in this program an underflow aborts the
    Rust program in both build profiles, since the release-mode wrapped
    value `2 ^ 64 - 1` is immediately used as a vector index or produces a
    comparison bound no small vector length can reach;
  * the recursive Node operations are written with an explicit fuel
    argument (structural recursion on the fuel) so that they stay kernel
    computable; the public wrappers instantiate the fuel with `Node.size`
    (the number of nodes of the tree), which is strictly larger than the
    recursion depth, so the wrappers agree with the Rust recursion.

The generic key type `T : PartialOrd + Clone` is modelled as a linearly
ordered type `α` (the spec requires total ordering plus copy semantics).
-/

set_option maxHeartbeats 1000000
set_option maxRecDepth 4000
set_option linter.unusedSectionVars false

/-- Checked `usize` subtraction: `none` models the Rust panic on underflow. -/
def checkedSub (a b : Nat) : Option Nat :=
  if b ≤ a then some (a - b) else none

/-- Rust `Vec::swap i j` (panics when an index is out of bounds). -/
def listSwap {α : Type} (l : List α) (i j : Nat) : Option (List α) :=
  match l[i]?, l[j]? with
  | some a, some b => some ((l.set i b).set j a)
  | _, _ => none

/-- Rust `Vec::remove i` (panics when `i ≥ len`); returns the removed
element together with the remaining vector. -/
def vecRemove {α : Type} (l : List α) (i : Nat) : Option (α × List α) :=
  match l[i]? with
  | some a => some (a, l.eraseIdx i)
  | none => none

/-- Rust `Vec::insert i a` (panics when `i > len`). -/
def vecInsertAt {α : Type} (l : List α) (i : Nat) (a : α) : Option (List α) :=
  if i ≤ l.length then some (l.take i ++ a :: l.drop i) else none

/-- Rust `Vec::pop().unwrap()` (panics on the empty vector); returns the
popped last element together with the remaining vector. -/
def vecPop {α : Type} (l : List α) : Option (α × List α) :=
  match l.getLast? with
  | some a => some (a, l.dropLast)
  | none => none

/-- Rust `Vec::split_off i` (panics when `i > len`); returns the kept
prefix and the split-off suffix. -/
def splitOff {α : Type} (l : List α) (i : Nat) : Option (List α × List α) :=
  if i ≤ l.length then some (l.take i, l.drop i) else none

/-- The `Node<T>` struct of src/main.rs: fields `leaf`, `count`, `keys`,
`children`, `t`. -/
inductive Node (α : Type) : Type where
  | mk (leaf : Bool) (count : Nat) (keys : List α) (children : List (Node α)) (t : Nat) : Node α

variable {α : Type}

/-- Field `leaf` of a node. -/
def Node.leaf : Node α → Bool
  | .mk l _ _ _ _ => l

/-- Field `count` of a node. -/
def Node.count : Node α → Nat
  | .mk _ c _ _ _ => c

/-- Field `keys` of a node. -/
def Node.keys : Node α → List α
  | .mk _ _ k _ _ => k

/-- Field `children` of a node. -/
def Node.children : Node α → List (Node α)
  | .mk _ _ _ ch _ => ch

/-- Field `t` (the branching parameter) of a node. -/
def Node.t : Node α → Nat
  | .mk _ _ _ _ t => t

/-- Constructor `Node::empty(t)` of src/main.rs (capacity hints have no
observable effect and are dropped). -/
def Node.empty (t : Nat) : Node α := .mk false 0 [] [] t

/-- Constructor `Node::leaf(t)` of src/main.rs (named `leafNode` here
because `Node.leaf` is taken by the field accessor). -/
def Node.leafNode (t : Nat) : Node α := .mk true 0 [] [] t

/-- In-place update of `children[i]` (Rust mutation through an index). -/
def Node.setChild : Node α → Nat → Node α → Node α
  | .mk l c k ch t, i, x => .mk l c k (ch.set i x) t

/-- In-place update of the `keys` field. -/
def Node.withKeys : Node α → List α → Node α
  | .mk l c _ ch t, k => .mk l c k ch t

/-- In-place update of the `children` field. -/
def Node.withChildren : Node α → List (Node α) → Node α
  | .mk l c k _ t, ch => .mk l c k ch t

/-- `Node::is_empty` of src/main.rs. -/
def Node.is_empty (n : Node α) : Bool := n.count == 0

mutual

/-- Number of nodes of a tree; used as recursion fuel by the wrappers of
the recursive operations (the recursion depth of every operation of
src/main.rs is bounded by the height of the tree, hence by `size`). -/
def Node.size : Node α → Nat
  | .mk _ _ _ ch _ => 1 + Node.sizeList ch

/-- Total number of nodes of a list of trees. -/
def Node.sizeList : List (Node α) → Nat
  | [] => 0
  | c :: cs => c.size + Node.sizeList cs

end

/-- `Node::is_full(index)` of src/main.rs:
`self.children[index].count == 2 * self.t - 1`. -/
def Node.is_full (n : Node α) (index : Nat) : Option Bool := do
  let c ← n.children[index]?
  let bound ← checkedSub (2 * n.t) 1
  some (c.count = bound)

/-- `Node::siblings(children, index)` of src/main.rs: filters the children
with index in `{index-1, index, index+1}` (keeping their order), then pads
with a single `None` marker in front when `index == 0`, at the back
otherwise, whenever fewer than three slots were collected. -/
def Node.siblings (children : List (Node α)) (index : Nat) : List (Option (Node α)) :=
  let result := (children.enum.filter
      (fun p => p.1 == index || p.1 + 1 == index || p.1 == index + 1)).map
      (fun p => some p.2)
  if result.length = 3 then result
  else if index = 0 then none :: result
  else result ++ [none]

/-- Loop body of `Node::to_vec` of src/main.rs: `for i in 0..=count`
accumulate `children[i].to_vec()` and, while `i != count`, `keys[i]`.
The first argument is the recursive call on a child; the last argument is
the number of remaining iterations (initially `count + 1`, so the base
case `0` is never reached from `Node.toVecFuel`). -/
def Node.toVecGo (tv : Node α → Option (List α)) (children : List (Node α))
    (keys : List α) : Nat → Nat → Option (List α)
  | _, 0 => some []
  | i, r+1 => do
    let c ← children[i]?
    let rest ← tv c
    if r = 0 then some rest
    else do
      let k ← keys[i]?
      let tail ← Node.toVecGo tv children keys (i+1) r
      some (rest ++ k :: tail)

/-- `Node::to_vec` of src/main.rs, with explicit fuel for the recursion
into children. -/
def Node.toVecFuel : Nat → Node α → Option (List α)
  | 0, _ => none
  | fuel+1, n =>
    if n.leaf then some n.keys
    else Node.toVecGo (Node.toVecFuel fuel) n.children n.keys 0 (n.count + 1)

/-- `Node::to_vec` of src/main.rs (fuel instantiated with `Node.size`). -/
def Node.to_vec (n : Node α) : Option (List α) := Node.toVecFuel n.size n

variable [LinearOrder α]

/-- The scan loop shared by `Node::contains` and `Node::delete` of
src/main.rs: starting from index `i` with `r` remaining iterations
(`i + r = count`), advance while `keys[i] < v`; return the first index at
which the scanned key is `≥ v`, or `count`.  Reading `keys[i]` out of
bounds is a panic. -/
def scanFrom (keys : List α) (v : α) : Nat → Nat → Option Nat
  | i, 0 => some i
  | i, r+1 =>
    match keys[i]? with
    | none => none
    | some k => if k < v then scanFrom keys v (i+1) r else some i

/-- `Node::contains` of src/main.rs, with explicit fuel. -/
def Node.containsFuel : Nat → Node α → α → Option Bool
  | 0, _, _ => none
  | fuel+1, n, v => do
    let i ← scanFrom n.keys v 0 n.count
    if n.leaf then
      if i = n.count then some false
      else do
        let k ← n.keys[i]?
        some (decide (k = v))
    else
      if i = n.count then do
        let c ← n.children[i]?
        Node.containsFuel fuel c v
      else do
        let k ← n.keys[i]?
        if v = k then some true
        else do
          let c ← n.children[i]?
          Node.containsFuel fuel c v

/-- `Node::contains` of src/main.rs (fuel instantiated with `Node.size`). -/
def Node.contains (n : Node α) (v : α) : Option Bool :=
  Node.containsFuel n.size n v

/-- Rust `Vec` index assignment `l[i] = a` (panics when `i ≥ len`). -/
def vecSet {β : Type} (l : List β) (i : Nat) (a : β) : Option (List β) :=
  if i < l.length then some (l.set i a) else none

/-- In-place update of the `count` field. -/
def Node.withCount : Node α → Nat → Node α
  | .mk l _ k ch t, c => .mk l c k ch t

/-- `Node::split(i)` of src/main.rs.  Precondition in the source:
`self` is nonfull and `self.children[i]` is full; the model is total and
returns `none` exactly when the Rust code would panic. -/
def Node.split (n : Node α) (i : Nat) : Option (Node α) := do
  let left ← n.children[i]?
  let tsub1 ← checkedSub n.t 1
  let (lkeys, rkeys) ← splitOff left.keys n.t
  let (lchildren, rchildren) ←
    if left.leaf then some (left.children, ([] : List (Node α)))
    else splitOff left.children n.t
  let (median, lkeys2) ← vecPop lkeys
  let keys2 ← vecInsertAt n.keys i median
  let right : Node α := .mk left.leaf tsub1 rkeys rchildren n.t
  let left2 : Node α := .mk left.leaf tsub1 lkeys2 lchildren n.t
  let children2 ← vecInsertAt (n.children.set i left2) (i+1) right
  some (.mk n.leaf (n.count + 1) keys2 children2 n.t)

/-- The descending scan of `Node::insert_nonfull` of src/main.rs:
`while i > 0 && keys[i] >= value do i -= 1`, started at `count - 1`. -/
def scanDown (keys : List α) (v : α) : Nat → Option Nat
  | 0 => some 0
  | i+1 =>
    match keys[i+1]? with
    | none => none
    | some k => if v ≤ k then scanDown keys v i else some (i+1)

/-- The insertion-sort loop of the leaf case of `Node::insert_nonfull` of
src/main.rs: the pushed value sits at position `i` (initially the old
`count`) and is swapped with `keys[i-1]` while `value < keys[i-1]`. -/
def bubble (v : α) : List α → Nat → Option (List α)
  | l, 0 => some l
  | l, i+1 =>
    match l[i]? with
    | none => none
    | some k =>
      if v < k then do
        let l2 ← listSwap l (i+1) i
        bubble v l2 i
      else some l

/-- `Node::insert_nonfull` of src/main.rs, with explicit fuel. -/
def Node.insertNonfullFuel : Nat → Node α → α → Option (Node α)
  | 0, _, _ => none
  | fuel+1, n, v =>
    if n.leaf then do
      let keys2 ← bubble v (n.keys ++ [v]) n.count
      some ((n.withKeys keys2).withCount (n.count + 1))
    else do
      let i0 ← checkedSub n.count 1
      let i1 ← scanDown n.keys v i0
      let k1 ← n.keys[i1]?
      let i2 := if k1 < v then i1 + 1 else i1
      let full ← n.is_full i2
      if full then do
        let n2 ← n.split i2
        let k2 ← n2.keys[i2]?
        let i3 := if k2 < v then i2 + 1 else i2
        let c ← n2.children[i3]?
        let c2 ← Node.insertNonfullFuel fuel c v
        some (n2.setChild i3 c2)
      else do
        let c ← n.children[i2]?
        let c2 ← Node.insertNonfullFuel fuel c v
        some (n.setChild i2 c2)

/-- `Node::insert_nonfull` of src/main.rs (fuel instantiated with
`Node.size`). -/
def Node.insert_nonfull (n : Node α) (v : α) : Option (Node α) :=
  Node.insertNonfullFuel n.size n v

/-- `Node::remove_key` of src/main.rs: remove the first key equal to
`key`, report whether one was found.  Note that the source does not
decrement `count`. -/
def Node.remove_key (n : Node α) (key : α) : Node α × Bool :=
  match n.keys.findIdx? (fun e => e == key) with
  | none => (n, false)
  | some index => (n.withKeys (n.keys.eraseIdx index), true)

/-- `Node::merge(children, target, delimeter_value)` of src/main.rs:
merge `children[target]` into its left sibling when one exists, else pull
the right sibling into it; returns the updated child list together with
the index of the merged node.  The `panic!` branch and every out-of-range
access are `none`.  Note that the source neither updates any `count`
field nor removes the delimiter key from the parent. -/
def Node.merge (children : List (Node α)) (target : Nat) (delimeter_value : α) :
    Option (List (Node α) × Nat) :=
  let s := Node.siblings children target
  match s[1]? with
  | none => none
  | some none => none
  | some (some target_leaf) =>
    let s2 := s.eraseIdx 1
    match s2[0]? with
    | none => none
    | some (some left) => do
      let left2 := left.withKeys (left.keys ++ delimeter_value :: target_leaf.keys)
      let tm1 ← checkedSub target 1
      let (_, children2) ← vecRemove (children.set tm1 left2) target
      some (children2, tm1)
    | some none =>
      match s2[1]? with
      | none => none
      | some none => none
      | some (some right) => do
        let target2 := target_leaf.withKeys
            (target_leaf.keys ++ delimeter_value :: right.keys)
        let (_, children2) ← vecRemove (children.set target target2) (target + 1)
        some (children2, target)

/-- Helper for `Node.delete_from_leaf`: a sibling slot that is present
and has at least `t` keys according to its `count` field. -/
def borrowable (t : Nat) : Option (Node α) → Option (Node α)
  | some c => if t ≤ c.count then some c else none
  | none => none

/-- `Node::delete_from_leaf(value, i)` of src/main.rs: remove `value`
from the leaf `children[i]`, borrowing from or merging with a sibling
when the leaf is below the minimum degree. -/
def Node.delete_from_leaf (n : Node α) (value : α) (i : Nat) :
    Option (Node α × Bool) :=
  let s := Node.siblings n.children i
  match s[1]? with
  | none => none
  | some none => none
  | some (some target_leaf) =>
    if n.t ≤ target_leaf.count then
      let p := target_leaf.remove_key value
      some (n.setChild i p.1, p.2)
    else
      let s2 := s.eraseIdx 1
      match s2[0]? with
      | none => none
      | some slot0 =>
        match borrowable n.t slot0 with
        | some left => do
          let (max_value, lkeys2) ← vecPop left.keys
          let (delim, keys2) ← vecRemove n.keys i
          let target2 := target_leaf.withKeys (delim :: target_leaf.keys)
          let keys3 ← vecInsertAt keys2 i max_value
          let im1 ← checkedSub i 1
          let n2 := (n.withKeys keys3).withChildren
              ((n.children.set im1 (left.withKeys lkeys2)).set i target2)
          some (n2, true)
        | none =>
          match s2[1]? with
          | none => none
          | some slot1 =>
            match borrowable n.t slot1 with
            | some right => do
              let (min_value, rkeys2) ← vecRemove right.keys 0
              let (delim, keys2) ← vecRemove n.keys i
              let target2 := target_leaf.withKeys (delim :: target_leaf.keys)
              let keys3 ← vecInsertAt keys2 i min_value
              let n2 := (n.withKeys keys3).withChildren
                  ((n.children.set i target2).set (i+1) (right.withKeys rkeys2))
              some (n2, true)
            | none => do
              let dk ← n.keys[i]?
              let (children2, new_leaf_index) ← Node.merge n.children i dk
              let tgt ← children2[new_leaf_index]?
              let p := tgt.remove_key value
              some (n.withChildren (children2.set new_leaf_index p.1), p.2)

/-- `Node::delete` of src/main.rs, with explicit fuel.  The unconditional
read of `self.keys[i - 1]` in the not-found branch underflows when
`i = 0`, which aborts the Rust program; this is the `checkedSub i 1`
below. -/
def Node.deleteFuel : Nat → Node α → α → Option (Node α × Bool)
  | 0, _, _ => none
  | fuel+1, n, value => do
    let i ← scanFrom n.keys value 0 n.count
    let exact ←
      if i = n.count then some false
      else do
        let k ← n.keys[i]?
        some (decide (k = value))
    if exact then do
      let moved ← n.children[i+1]?
      let (minK, mkeys) ← vecRemove moved.keys 0
      let moved2 := moved.withKeys (value :: mkeys)
      let keys2 ← vecSet n.keys i minK
      let n2 := (n.withKeys keys2).withChildren (n.children.set (i+1) moved2)
      if moved2.leaf then n2.delete_from_leaf value (i+1)
      else do
        let (moved3, status) ← Node.deleteFuel fuel moved2 value
        let n3 := n2.setChild (i+1) moved3
        let delim ← n3.keys[i]?
        if moved3.count < n3.t then do
          let (ch2, _) ← Node.merge n3.children i delim
          some (n3.withChildren ch2, status)
        else some (n3, status)
    else do
      let im1 ← checkedSub i 1
      let max_value ← n.keys[im1]?
      let target ← n.children[i]?
      if target.leaf then n.delete_from_leaf value i
      else do
        let (target2, status) ← Node.deleteFuel fuel target value
        let n2 := n.setChild i target2
        if target2.count < n2.t then do
          let (ch2, _) ← Node.merge n2.children i max_value
          some (n2.withChildren ch2, status)
        else some (n2, status)

/-- `Node::delete` of src/main.rs (fuel instantiated with `Node.size`). -/
def Node.delete (n : Node α) (value : α) : Option (Node α × Bool) :=
  Node.deleteFuel n.size n value

/-- The `BTree<T>` struct of src/main.rs. -/
structure BTree (α : Type) where
  root : Node α
  t : Nat

/-- `BTree::new(t)` of src/main.rs: an empty leaf root. -/
def BTree.new (α : Type) (t : Nat) : BTree α := ⟨Node.leafNode t, t⟩

/-- `BTree::insert(value)` of src/main.rs: insert directly when the root
is not full, otherwise wrap the old root in a fresh internal root, split
it, and insert into the new root. -/
def BTree.insert (tr : BTree α) (value : α) : Option (BTree α) := do
  let bound ← checkedSub (2 * tr.t) 1
  if tr.root.count ≠ bound then do
    let r ← tr.root.insert_nonfull value
    some ⟨r, tr.t⟩
  else do
    let newRoot : Node α := .mk false 0 [] [tr.root] tr.t
    let r1 ← newRoot.split 0
    let r2 ← r1.insert_nonfull value
    some ⟨r2, tr.t⟩

/-- `BTree::delete(value)` of src/main.rs. -/
def BTree.delete (tr : BTree α) (value : α) : Option (BTree α × Bool) :=
  if tr.root.leaf then
    let p := tr.root.remove_key value
    some (⟨p.1, tr.t⟩, p.2)
  else do
    let (r, status) ← tr.root.delete value
    some (⟨r, tr.t⟩, status)

/-- `BTree::to_vec` of src/main.rs. -/
def BTree.to_vec (tr : BTree α) : Option (List α) := tr.root.to_vec

/-- `BTree::contains` of src/main.rs. -/
def BTree.contains (tr : BTree α) (value : α) : Option Bool :=
  tr.root.contains value

/-- A sequence of `BTree::insert` calls, in order. -/
def insertAll (tr : BTree α) (vs : List α) : Option (BTree α) :=
  vs.foldlM BTree.insert tr

mutual

/-- All keys stored in a subtree (keys of the node followed by the keys
of its children, in structural order).  This is the specification-level
contents function used to state the invariants; `Node.to_vec` is the
program's serialization. -/
def Node.elems : Node α → List α
  | .mk _ _ keys ch _ => keys ++ Node.elemsList ch

/-- All keys stored in a list of subtrees. -/
def Node.elemsList : List (Node α) → List α
  | [] => []
  | c :: cs => c.elems ++ Node.elemsList cs

end

/-- Well-formedness invariant maintained by the insertion path of
src/main.rs for branching parameter `t`:
the stored `t` field is `t`; `count` equals `keys.length`; every node has
at most `2 * t - 1` keys (written `count + 1 ≤ 2 * t`); keys are sorted
non-decreasingly; a leaf has no children; an internal node has at least
one key, exactly `count + 1` children, well-formed children, and the keys
separate the children's contents: everything in `children[j]` is at most
`keys[j]`, and everything in `children[j+1]` is at least `keys[j]`. -/
inductive WF (t : Nat) : Node α → Prop where
  | leaf : ∀ (count : Nat) (keys : List α),
      keys.length = count →
      count + 1 ≤ 2 * t →
      keys.Sorted (· ≤ ·) →
      WF t (.mk true count keys [] t)
  | internal : ∀ (count : Nat) (keys : List α) (children : List (Node α)),
      keys.length = count →
      1 ≤ count →
      count + 1 ≤ 2 * t →
      children.length = count + 1 →
      keys.Sorted (· ≤ ·) →
      (∀ c ∈ children, WF t c) →
      (∀ (j : Nat) (c : Node α) (x kv : α), children[j+1]? = some c →
        x ∈ Node.elems c → keys[j]? = some kv → kv ≤ x) →
      (∀ (j : Nat) (c : Node α) (x kv : α), children[j]? = some c →
        x ∈ Node.elems c → keys[j]? = some kv → x ≤ kv) →
      WF t (.mk false count keys children t)

/-- The count/length synchronization property of claim C10: in every node
`keys.length = count`, and every internal node has `count + 1` children. -/
inductive Synced : Node α → Prop where
  | mk : ∀ (l : Bool) (c : Nat) (k : List α) (ch : List (Node α)) (t : Nat),
      k.length = c →
      (l = false → ch.length = c + 1) →
      (∀ x ∈ ch, Synced x) →
      Synced (.mk l c k ch t)

/-- Every node of the tree has non-decreasingly sorted keys (the amended
form of claim C8). -/
inductive KeysSortedRec : Node α → Prop where
  | mk : ∀ (l : Bool) (c : Nat) (k : List α) (ch : List (Node α)) (t : Nat),
      k.Sorted (· ≤ ·) →
      (∀ x ∈ ch, KeysSortedRec x) →
      KeysSortedRec (.mk l c k ch t)

/-! Basic simp lemmas for the accessors and the size functions. -/

@[simp] theorem Node.leaf_mk (l : Bool) (c : Nat) (k : List α) (ch : List (Node α)) (t : Nat) :
    (Node.mk l c k ch t).leaf = l := rfl

@[simp] theorem Node.count_mk (l : Bool) (c : Nat) (k : List α) (ch : List (Node α)) (t : Nat) :
    (Node.mk l c k ch t).count = c := rfl

@[simp] theorem Node.keys_mk (l : Bool) (c : Nat) (k : List α) (ch : List (Node α)) (t : Nat) :
    (Node.mk l c k ch t).keys = k := rfl

@[simp] theorem Node.children_mk (l : Bool) (c : Nat) (k : List α) (ch : List (Node α)) (t : Nat) :
    (Node.mk l c k ch t).children = ch := rfl

@[simp] theorem Node.t_mk (l : Bool) (c : Nat) (k : List α) (ch : List (Node α)) (t : Nat) :
    (Node.mk l c k ch t).t = t := rfl

@[simp] theorem Node.setChild_mk (l : Bool) (c : Nat) (k : List α) (ch : List (Node α)) (t : Nat)
    (i : Nat) (x : Node α) : (Node.mk l c k ch t).setChild i x = .mk l c k (ch.set i x) t := rfl

@[simp] theorem Node.withKeys_mk (l : Bool) (c : Nat) (k k2 : List α) (ch : List (Node α)) (t : Nat) :
    (Node.mk l c k ch t).withKeys k2 = .mk l c k2 ch t := rfl

@[simp] theorem Node.withChildren_mk (l : Bool) (c : Nat) (k : List α) (ch ch2 : List (Node α)) (t : Nat) :
    (Node.mk l c k ch t).withChildren ch2 = .mk l c k ch2 t := rfl

@[simp] theorem Node.withCount_mk (l : Bool) (c c2 : Nat) (k : List α) (ch : List (Node α)) (t : Nat) :
    (Node.mk l c k ch t).withCount c2 = .mk l c2 k ch t := rfl

@[simp] theorem Node.size_mk (l : Bool) (c : Nat) (k : List α) (ch : List (Node α)) (t : Nat) :
    (Node.mk l c k ch t).size = 1 + Node.sizeList ch := by
  rw [Node.size]

@[simp] theorem Node.sizeList_nil : Node.sizeList ([] : List (Node α)) = 0 := by
  rw [Node.sizeList]

@[simp] theorem Node.sizeList_cons (c : Node α) (cs : List (Node α)) :
    Node.sizeList (c :: cs) = c.size + Node.sizeList cs := by
  rw [Node.sizeList]

@[simp] theorem Node.elems_mk (l : Bool) (c : Nat) (k : List α) (ch : List (Node α)) (t : Nat) :
    (Node.mk l c k ch t).elems = k ++ Node.elemsList ch := by
  rw [Node.elems]

@[simp] theorem Node.elemsList_nil : Node.elemsList ([] : List (Node α)) = [] := by
  rw [Node.elemsList]

@[simp] theorem Node.elemsList_cons (c : Node α) (cs : List (Node α)) :
    Node.elemsList (c :: cs) = c.elems ++ Node.elemsList cs := by
  rw [Node.elemsList]

theorem Node.elemsList_append (l1 l2 : List (Node α)) :
    Node.elemsList (l1 ++ l2) = Node.elemsList l1 ++ Node.elemsList l2 := by
  induction l1 with
  | nil => simp
  | cons c cs ih => simp [ih]

theorem Node.mem_elemsList {x : α} {ch : List (Node α)} :
    x ∈ Node.elemsList ch ↔ ∃ c ∈ ch, x ∈ c.elems := by
  induction ch with
  | nil => simp
  | cons c cs ih =>
    simp only [Node.elemsList_cons, List.mem_append, ih, List.mem_cons]
    constructor
    · rintro (hx | ⟨c2, hc2, hx⟩)
      · exact ⟨c, Or.inl rfl, hx⟩
      · exact ⟨c2, Or.inr hc2, hx⟩
    · rintro ⟨c2, (rfl | hc2), hx⟩
      · exact Or.inl hx
      · exact Or.inr ⟨c2, hc2, hx⟩

theorem Node.sizeList_append (l1 l2 : List (Node α)) :
    Node.sizeList (l1 ++ l2) = Node.sizeList l1 + Node.sizeList l2 := by
  induction l1 with
  | nil => simp
  | cons c cs ih => simp [ih]; omega

theorem Node.size_pos (n : Node α) : 1 ≤ n.size := by
  cases n with
  | mk l c k ch t => simp

theorem Node.size_le_sizeList_of_mem {c : Node α} {ch : List (Node α)} (h : c ∈ ch) :
    c.size ≤ Node.sizeList ch := by
  induction ch with
  | nil => simp at h
  | cons c2 cs ih =>
    rcases List.mem_cons.mp h with rfl | h2
    · simp
    · have := ih h2
      simp
      omega

theorem Node.size_le_of_getElem? {ch : List (Node α)} {i : Nat} {c : Node α}
    (h : ch[i]? = some c) : c.size ≤ Node.sizeList ch :=
  Node.size_le_sizeList_of_mem (List.getElem?_mem h)

/-! Concrete evaluation steps for the traces used by the claims.
Each lemma records the result of one `BTree::insert` call on an explicit
tree, so that longer call sequences can be assembled by rewriting (a
single definitional reduction of a whole call chain is exponential in the
chain length, while each step is cheap). -/

theorem t2s1 : BTree.insert (BTree.new Int 2) 1 = some ⟨.mk true 1 [1] [] 2, 2⟩ := by rfl

theorem t2s2 : BTree.insert (⟨.mk true 1 [1] [] 2, 2⟩ : BTree Int) 2
    = some ⟨.mk true 2 [1, 2] [] 2, 2⟩ := by rfl

theorem t2s3 : BTree.insert (⟨.mk true 2 [1, 2] [] 2, 2⟩ : BTree Int) 3
    = some ⟨.mk true 3 [1, 2, 3] [] 2, 2⟩ := by rfl

theorem t2s4 : BTree.insert (⟨.mk true 3 [1, 2, 3] [] 2, 2⟩ : BTree Int) 4
    = some ⟨.mk false 1 [2] [.mk true 1 [1] [] 2, .mk true 2 [3, 4] [] 2] 2, 2⟩ := by rfl

theorem t2s5 : BTree.insert
    (⟨.mk false 1 [2] [.mk true 1 [1] [] 2, .mk true 2 [3, 4] [] 2] 2, 2⟩ : BTree Int) 5
    = some ⟨.mk false 1 [2] [.mk true 1 [1] [] 2, .mk true 3 [3, 4, 5] [] 2] 2, 2⟩ := by rfl

theorem t2s6 : BTree.insert
    (⟨.mk false 1 [2] [.mk true 1 [1] [] 2, .mk true 3 [3, 4, 5] [] 2] 2, 2⟩ : BTree Int) 6
    = some ⟨.mk false 2 [2, 4] [.mk true 1 [1] [] 2, .mk true 1 [3] [] 2,
        .mk true 2 [5, 6] [] 2] 2, 2⟩ := by rfl

theorem t2s7 : BTree.insert
    (⟨.mk false 2 [2, 4] [.mk true 1 [1] [] 2, .mk true 1 [3] [] 2,
        .mk true 2 [5, 6] [] 2] 2, 2⟩ : BTree Int) 7
    = some ⟨.mk false 2 [2, 4] [.mk true 1 [1] [] 2, .mk true 1 [3] [] 2,
        .mk true 3 [5, 6, 7] [] 2] 2, 2⟩ := by rfl

theorem t2s8 : BTree.insert
    (⟨.mk false 2 [2, 4] [.mk true 1 [1] [] 2, .mk true 1 [3] [] 2,
        .mk true 3 [5, 6, 7] [] 2] 2, 2⟩ : BTree Int) 8
    = some ⟨.mk false 3 [2, 4, 6] [.mk true 1 [1] [] 2, .mk true 1 [3] [] 2,
        .mk true 1 [5] [] 2, .mk true 2 [7, 8] [] 2] 2, 2⟩ := by rfl

theorem insert4_eval : insertAll (BTree.new Int 2) [1, 2, 3, 4]
    = some ⟨.mk false 1 [2] [.mk true 1 [1] [] 2, .mk true 2 [3, 4] [] 2] 2, 2⟩ := by
  simp [insertAll, List.foldlM_cons, List.foldlM_nil, t2s1, t2s2, t2s3, t2s4]

theorem insert6_eval : insertAll (BTree.new Int 2) [1, 2, 3, 4, 5, 6]
    = some ⟨.mk false 2 [2, 4] [.mk true 1 [1] [] 2, .mk true 1 [3] [] 2,
        .mk true 2 [5, 6] [] 2] 2, 2⟩ := by
  simp [insertAll, List.foldlM_cons, List.foldlM_nil, t2s1, t2s2, t2s3, t2s4, t2s5, t2s6]

theorem insert8_eval : insertAll (BTree.new Int 2) [1, 2, 3, 4, 5, 6, 7, 8]
    = some ⟨.mk false 3 [2, 4, 6] [.mk true 1 [1] [] 2, .mk true 1 [3] [] 2,
        .mk true 1 [5] [] 2, .mk true 2 [7, 8] [] 2] 2, 2⟩ := by
  simp [insertAll, List.foldlM_cons, List.foldlM_nil, t2s1, t2s2, t2s3, t2s4, t2s5, t2s6,
    t2s7, t2s8]

theorem t3s1 : BTree.insert (BTree.new Int 3) 1 = some ⟨.mk true 1 [1] [] 3, 3⟩ := by rfl

theorem t3s2 : BTree.insert (⟨.mk true 1 [1] [] 3, 3⟩ : BTree Int) 2
    = some ⟨.mk true 2 [1, 2] [] 3, 3⟩ := by rfl

theorem t3s3 : BTree.insert (⟨.mk true 2 [1, 2] [] 3, 3⟩ : BTree Int) (-1)
    = some ⟨.mk true 3 [-1, 1, 2] [] 3, 3⟩ := by rfl

theorem t3s4 : BTree.insert (⟨.mk true 3 [-1, 1, 2] [] 3, 3⟩ : BTree Int) 2
    = some ⟨.mk true 4 [-1, 1, 2, 2] [] 3, 3⟩ := by rfl

theorem t3s5 : BTree.insert (⟨.mk true 4 [-1, 1, 2, 2] [] 3, 3⟩ : BTree Int) 5
    = some ⟨.mk true 5 [-1, 1, 2, 2, 5] [] 3, 3⟩ := by rfl

theorem t3s6 : BTree.insert (⟨.mk true 5 [-1, 1, 2, 2, 5] [] 3, 3⟩ : BTree Int) 100
    = some ⟨.mk false 1 [2] [.mk true 2 [-1, 1] [] 3, .mk true 3 [2, 5, 100] [] 3] 3, 3⟩ := by rfl

theorem t3s7 : BTree.insert
    (⟨.mk false 1 [2] [.mk true 2 [-1, 1] [] 3, .mk true 3 [2, 5, 100] [] 3] 3, 3⟩ : BTree Int) (-10)
    = some ⟨.mk false 1 [2] [.mk true 3 [-10, -1, 1] [] 3, .mk true 3 [2, 5, 100] [] 3] 3, 3⟩ := by rfl

theorem t3s8 : BTree.insert
    (⟨.mk false 1 [2] [.mk true 3 [-10, -1, 1] [] 3, .mk true 3 [2, 5, 100] [] 3] 3, 3⟩ : BTree Int) 0
    = some ⟨.mk false 1 [2] [.mk true 4 [-10, -1, 0, 1] [] 3, .mk true 3 [2, 5, 100] [] 3] 3, 3⟩ := by rfl

theorem t3s9 : BTree.insert
    (⟨.mk false 1 [2] [.mk true 4 [-10, -1, 0, 1] [] 3, .mk true 3 [2, 5, 100] [] 3] 3, 3⟩ : BTree Int) 124
    = some ⟨.mk false 1 [2] [.mk true 4 [-10, -1, 0, 1] [] 3, .mk true 4 [2, 5, 100, 124] [] 3] 3, 3⟩ := by rfl

theorem t3s10 : BTree.insert
    (⟨.mk false 1 [2] [.mk true 4 [-10, -1, 0, 1] [] 3, .mk true 4 [2, 5, 100, 124] [] 3] 3, 3⟩ : BTree Int) 4
    = some ⟨.mk false 1 [2] [.mk true 4 [-10, -1, 0, 1] [] 3, .mk true 5 [2, 4, 5, 100, 124] [] 3] 3, 3⟩ := by rfl

theorem insert10_eval : insertAll (BTree.new Int 3) [1, 2, -1, 2, 5, 100, -10, 0, 124, 4]
    = some ⟨.mk false 1 [2] [.mk true 4 [-10, -1, 0, 1] [] 3, .mk true 5 [2, 4, 5, 100, 124] [] 3] 3, 3⟩ := by
  simp [insertAll, List.foldlM_cons, List.foldlM_nil, t3s1, t3s2, t3s3, t3s4, t3s5, t3s6,
    t3s7, t3s8, t3s9, t3s10]

/-- Claim C1: on a tree reachable from `new(t)`, `delete(v)` with exactly
one occurrence of `v` should return true (and `delete` of an absent key
should return false).  The code violates this: on the tree built by
inserting `[1,2,3,4]` with `t = 2` (whose sequence is `[1,2,3,4]`, so it
contains exactly one `1`), `delete(1)` reads `keys[i - 1]` with `i = 0`
in `Node::delete`, which underflows and aborts instead of returning true;
the model value is `none`. -/
theorem claim_C1_delete_of_present_key_panics :
    ∃ tr : BTree Int,
      insertAll (BTree.new Int 2) [1, 2, 3, 4] = some tr ∧
      BTree.to_vec tr = some [1, 2, 3, 4] ∧
      BTree.delete tr 1 = none :=
  ⟨⟨.mk false 1 [2] [.mk true 1 [1] [] 2, .mk true 2 [3, 4] [] 2] 2, 2⟩,
    insert4_eval, by rfl, by rfl⟩

/-- Claim C2: `contains`, `delete` and `to_sequence` should be total on
every well-formed tree (reachable from `new(t)` by public operations) and
every key.  The code violates this: on the tree built by inserting
`[1,2,3,4]` with `t = 2`, the key `0` is absent (`contains` returns
false), yet `delete(0)` hits the `keys[i - 1]` underflow in
`Node::delete` and aborts; the model value is `none`. -/
theorem claim_C2_delete_not_total :
    ∃ tr : BTree Int,
      insertAll (BTree.new Int 2) [1, 2, 3, 4] = some tr ∧
      BTree.contains tr 0 = some false ∧
      BTree.delete tr 0 = none :=
  ⟨⟨.mk false 1 [2] [.mk true 1 [1] [] 2, .mk true 2 [3, 4] [] 2] 2, 2⟩,
    insert4_eval, by rfl, by rfl⟩

/-- Claim C3: after any sequence of insert and delete calls every internal
node should have `children.len() = key_count + 1`.  The code violates
this: with `t = 2`, inserting `[1,...,8]` and deleting `3` completes and
returns true, but the merge in `delete_from_leaf` removes a child without
removing the corresponding parent key, leaving the root with `count = 3`
and only `3` children. -/
theorem claim_C3_arity_invariant_broken_by_delete :
    ∃ (tr tr2 : BTree Int),
      insertAll (BTree.new Int 2) [1, 2, 3, 4, 5, 6, 7, 8] = some tr ∧
      BTree.delete tr 3 = some (tr2, true) ∧
      tr2.root.leaf = false ∧
      tr2.root.count = 3 ∧
      tr2.root.children.length = 3 :=
  ⟨⟨.mk false 3 [2, 4, 6] [.mk true 1 [1] [] 2, .mk true 1 [3] [] 2,
      .mk true 1 [5] [] 2, .mk true 2 [7, 8] [] 2] 2, 2⟩,
   ⟨.mk false 3 [2, 4, 6] [.mk true 1 [1, 4] [] 2, .mk true 1 [5] [] 2,
      .mk true 2 [7, 8] [] 2] 2, 2⟩,
    insert8_eval, by rfl, rfl, rfl, rfl⟩

/-- Claim C6: after `insert(7)`, `contains(7)` should stay true until a
`delete(7)` that returns true.  The code violates this: with `t = 2`,
after inserting `[1,...,8]` the test `contains(7)` is true, but after
`delete(3)` (a delete of a different key, returning true) the corrupted
root makes `contains(7)` read `children[count]` out of bounds and abort;
the model value is `none` instead of `some true`. -/
theorem claim_C6_contains_broken_by_unrelated_delete :
    ∃ (tr tr2 : BTree Int),
      insertAll (BTree.new Int 2) [1, 2, 3, 4, 5, 6, 7, 8] = some tr ∧
      BTree.contains tr 7 = some true ∧
      BTree.delete tr 3 = some (tr2, true) ∧
      BTree.contains tr2 7 = none :=
  ⟨⟨.mk false 3 [2, 4, 6] [.mk true 1 [1] [] 2, .mk true 1 [3] [] 2,
      .mk true 1 [5] [] 2, .mk true 2 [7, 8] [] 2] 2, 2⟩,
   ⟨.mk false 3 [2, 4, 6] [.mk true 1 [1, 4] [] 2, .mk true 1 [5] [] 2,
      .mk true 2 [7, 8] [] 2] 2, 2⟩,
    insert8_eval, by rfl, by rfl, by rfl⟩

/-- Claim C7: the demo scenario of src/main.rs (`t = 3`, insert
`[1,2,-1,2,5,100,-10,0,124,4]`, then `delete(1)`) should return true with
`to_sequence() = [-10,-1,0,2,2,4,5,100,124]`.  The code violates this:
`delete(1)` descends with `i = 0` into the not-found branch of
`Node::delete` and the read of `keys[i - 1]` aborts the program, so the
call never returns; the model value is `none`. -/
theorem claim_C7_demo_delete_panics :
    ∃ tr : BTree Int,
      insertAll (BTree.new Int 3) [1, 2, -1, 2, 5, 100, -10, 0, 124, 4] = some tr ∧
      BTree.delete tr 1 = none :=
  ⟨⟨.mk false 1 [2] [.mk true 4 [-10, -1, 0, 1] [] 3, .mk true 5 [2, 4, 5, 100, 124] [] 3] 3, 3⟩,
    insert10_eval, by rfl⟩

/-- Claim C8 counterexample: the claim states that after every completed
public operation the keys within every node are sorted ascending with no
duplicate inside a node.  Both parts fail on the code: inserting `[2,2]`
with `t = 2` leaves the root with keys `[2,2]` (a duplicate inside one
node, by the documented duplicate policy), and with `t = 2` inserting
`[1,...,6]` and then deleting `3` completes (returning true) but leaves
the middle child with keys `[4,3]`, not sorted. -/
theorem claim_C8_counterexample :
    (∃ tr : BTree Int,
      insertAll (BTree.new Int 2) [2, 2] = some tr ∧ tr.root.keys = [2, 2]) ∧
    (∃ (tr tr2 : BTree Int) (c : Node Int),
      insertAll (BTree.new Int 2) [1, 2, 3, 4, 5, 6] = some tr ∧
      BTree.delete tr 3 = some (tr2, true) ∧
      tr2.root.children[1]? = some c ∧
      c.keys = [4, 3]) :=
  ⟨⟨⟨.mk true 2 [2, 2] [] 2, 2⟩, by rfl, rfl⟩,
   ⟨⟨.mk false 2 [2, 4] [.mk true 1 [1] [] 2, .mk true 1 [3] [] 2,
       .mk true 2 [5, 6] [] 2] 2, 2⟩,
    ⟨.mk false 2 [2, 5] [.mk true 1 [1] [] 2, .mk true 1 [4, 3] [] 2,
       .mk true 2 [6] [] 2] 2, 2⟩,
    .mk true 1 [4, 3] [] 2,
    insert6_eval, by rfl, rfl, rfl⟩⟩

/-- Claim C9 counterexample: the claim states that the sibling lookup on a
node with at least one child always returns exactly three slots, a node
with a single child yielding `[absent, child, absent]`.  The code pads
with at most one absent marker, so a single-child node yields only two
slots `[absent, child]`. -/
theorem claim_C9_counterexample :
    Node.siblings [(Node.leafNode 2 : Node Int)] 0 = [none, some (Node.leafNode 2)] ∧
    (Node.siblings [(Node.leafNode 2 : Node Int)] 0).length = 2 :=
  ⟨rfl, rfl⟩

/-- The filter inside `Node::siblings` keeps exactly the elements whose
enumeration index lies in the window `[index-1, index+1]`; viewed from an
arbitrary enumeration offset `n`, this is a drop-then-take of the list. -/
theorem enumFrom_filter_window {β : Type} (i : Nat) :
    ∀ (l : List β) (n : Nat),
      ((List.enumFrom n l).filter
          (fun p => p.1 == i || p.1 + 1 == i || p.1 == i + 1)).map Prod.snd
        = (l.drop (i - 1 - n)).take (i + 2 - max n (i - 1)) := by
  intro l
  induction l with
  | nil => intro n; simp
  | cons x xs ih =>
    intro n
    rw [List.enumFrom_cons, List.filter_cons]
    by_cases hc : n = i ∨ n + 1 = i ∨ n = i + 1
    · have hb : (n == i || n + 1 == i || n == i + 1) = true := by
        simp only [Bool.or_eq_true, beq_iff_eq]
        omega
      rw [if_pos hb, List.map_cons, ih (n + 1)]
      have h2 : i - 1 - (n + 1) = 0 := by omega
      have h3 : max (n + 1) (i - 1) = n + 1 := by omega
      have h1 : i - 1 - n = 0 := by omega
      have h4 : max n (i - 1) = n := by omega
      have h5 : i + 2 - n = (i + 2 - (n + 1)) + 1 := by omega
      rw [h2, h3, h1, h4, h5]
      simp
    · have hb : ¬((n == i || n + 1 == i || n == i + 1) = true) := by
        simp only [Bool.or_eq_true, beq_iff_eq]
        omega
      rw [if_neg hb, ih (n + 1)]
      have hrange : n + 2 ≤ i ∨ i + 2 ≤ n := by omega
      rcases hrange with hlt | hgt
      · have h2 : i - 1 - (n + 1) = i - 2 - n := by omega
        have h3 : max (n + 1) (i - 1) = i - 1 := by omega
        have h4 : max n (i - 1) = i - 1 := by omega
        have h5 : i - 1 - n = (i - 2 - n) + 1 := by omega
        rw [h2, h3, h4, h5, List.drop_succ_cons]
      · have h3 : i + 2 - max (n + 1) (i - 1) = 0 := by omega
        have h4 : i + 2 - max n (i - 1) = 0 := by omega
        rw [h3, h4, List.take_zero, List.take_zero]

/-- The collected slots of `Node.siblings` are the window
`children[index-1 .. index+1]`, each wrapped in `some`. -/
theorem siblings_result_eq (children : List (Node α)) (index : Nat) :
    (children.enum.filter
        (fun p => p.1 == index || p.1 + 1 == index || p.1 == index + 1)).map
        (fun p => some p.2)
      = ((children.drop (index - 1)).take (index + 2 - (index - 1))).map some := by
  have h1 : (children.enum.filter
        (fun p => p.1 == index || p.1 + 1 == index || p.1 == index + 1)).map
        (fun p => some p.2)
      = ((children.enum.filter
          (fun p => p.1 == index || p.1 + 1 == index || p.1 == index + 1)).map
          Prod.snd).map some := by
    rw [List.map_map]
    rfl
  rw [h1, List.enum]
  rw [enumFrom_filter_window index children 0]
  have h2 : index - 1 - 0 = index - 1 := by omega
  have h3 : max 0 (index - 1) = index - 1 := by omega
  rw [h2, h3]

/-- Claim C9, amended: for every node with at least two children and every
valid child index `i`, the sibling lookup returns exactly three slots
`[left-or-absent, the child at i, right-or-absent]`: the middle slot holds
`children[i]`, the first slot is the absent marker exactly when `i` is the
first child (and holds `children[i-1]` otherwise), and the last slot is
the absent marker exactly when `i` is the last child (and holds
`children[i+1]` otherwise).  (A node with a single child instead yields
the two slots `[absent, child]`, see the counterexample.) -/
theorem claim_C9_siblings_three_slots (children : List (Node α)) (i : Nat)
    (h2 : 2 ≤ children.length) (hi : i < children.length) :
    (Node.siblings children i).length = 3 ∧
    (Node.siblings children i)[1]? = some children[i]? ∧
    ((Node.siblings children i)[0]? = some none ↔ i = 0) ∧
    (1 ≤ i → (Node.siblings children i)[0]? = some children[i - 1]?) ∧
    ((Node.siblings children i)[2]? = some none ↔ i = children.length - 1) ∧
    (i + 1 < children.length → (Node.siblings children i)[2]? = some children[i + 1]?) := by
  have hmapsome : ∀ (j : Nat), j < children.length →
      (children[j]?.map some) = some children[j]? := by
    intro j hj
    rw [List.getElem?_eq_getElem hj]
    rfl
  have hsome : ∀ (j : Nat), j < children.length →
      ∃ c, children[j]? = some c := by
    intro j hj
    exact ⟨children[j], List.getElem?_eq_getElem hj⟩
  rw [Node.siblings]
  rw [siblings_result_eq children i]
  set res := ((children.drop (i - 1)).take (i + 2 - (i - 1))).map some with hres
  have hresj : ∀ j, j < i + 2 - (i - 1) → res[j]? = children[i - 1 + j]?.map some := by
    intro j hj
    rw [hres, List.getElem?_map, List.getElem?_take, if_pos hj, List.getElem?_drop]
  have hlen : res.length = min (i + 2 - (i - 1)) (children.length - (i - 1)) := by
    rw [hres, List.length_map, List.length_take, List.length_drop]
  by_cases h0 : i = 0
  · subst h0
    have hlen2 : res.length = 2 := by omega
    rw [if_neg (by omega), if_pos rfl]
    obtain ⟨c0, hc0⟩ := hsome 0 (by omega)
    obtain ⟨c1, hc1⟩ := hsome 1 (by omega)
    have e0 : res[0]? = some children[0]? := by
      rw [hresj 0 (by omega)]
      exact hmapsome 0 (by omega)
    have e1 : res[1]? = some children[1]? := by
      rw [hresj 1 (by omega)]
      exact hmapsome 1 (by omega)
    have c1e : (none :: res)[1]? = res[0]? := by simp
    have c2e : (none :: res)[2]? = res[1]? := by simp
    refine ⟨by simp [hlen2], ?_, by simp, ?_, ?_, ?_⟩
    · rw [c1e]
      exact e0
    · intro h
      omega
    · rw [c2e, e1, hc1]
      constructor
      · intro h
        simp at h
      · intro h
        omega
    · intro h
      rw [c2e]
      exact e1
  · by_cases hlast : i + 1 < children.length
    · have hlen3 : res.length = 3 := by omega
      rw [if_pos hlen3]
      have e0 : res[0]? = some children[i - 1]? := by
        rw [hresj 0 (by omega)]
        exact hmapsome (i - 1) (by omega)
      have e1 : res[1]? = some children[i]? := by
        rw [hresj 1 (by omega), show i - 1 + 1 = i by omega]
        exact hmapsome i hi
      have e2 : res[2]? = some children[i + 1]? := by
        rw [hresj 2 (by omega), show i - 1 + 2 = i + 1 by omega]
        exact hmapsome (i + 1) hlast
      obtain ⟨cl, hcl⟩ := hsome (i - 1) (by omega)
      obtain ⟨cr, hcr⟩ := hsome (i + 1) hlast
      refine ⟨hlen3, e1, ?_, fun _ => e0, ?_, fun _ => e2⟩
      · rw [e0, hcl]
        constructor
        · intro h
          simp at h
        · intro h
          omega
      · rw [e2, hcr]
        constructor
        · intro h
          simp at h
        · intro h
          omega
    · have hilast : i = children.length - 1 := by omega
      have hlen2 : res.length = 2 := by omega
      rw [if_neg (by omega), if_neg h0]
      have e0 : res[0]? = some children[i - 1]? := by
        rw [hresj 0 (by omega)]
        exact hmapsome (i - 1) (by omega)
      have e1 : res[1]? = some children[i]? := by
        rw [hresj 1 (by omega), show i - 1 + 1 = i by omega]
        exact hmapsome i hi
      obtain ⟨cl, hcl⟩ := hsome (i - 1) (by omega)
      have a0 : (res ++ [none])[0]? = res[0]? := by
        rw [List.getElem?_append]
        rw [if_pos (by omega)]
      have a1 : (res ++ [none])[1]? = res[1]? := by
        rw [List.getElem?_append]
        rw [if_pos (by omega)]
      have a2 : (res ++ [(none : Option (Node α))])[2]? = some none := by
        rw [List.getElem?_append_right (by omega), hlen2]
        rfl
      refine ⟨by simp [hlen2], ?_, ?_, ?_, ?_, ?_⟩
      · rw [a1]
        exact e1
      · rw [a0, e0, hcl]
        constructor
        · intro h
          simp at h
        · intro h
          omega
      · intro h
        rw [a0]
        exact e0
      · rw [a2]
        simp [hilast]
      · intro h
        omega

/-- Witness for the amended claim C9 at a concrete two-child node. -/
theorem claim_C9_siblings_three_slots_witness :
    (Node.siblings [(Node.leafNode 2 : Node Int), Node.leafNode 2] 0).length = 3 :=
  (claim_C9_siblings_three_slots [(Node.leafNode 2 : Node Int), Node.leafNode 2] 0
    (by decide) (by decide)).1

/-- Swapping the two adjacent positions `|pre|` and `|pre| + 1`. -/
theorem listSwap_adjacent (pre post : List α) (a b : α) :
    listSwap (pre ++ a :: b :: post) (pre.length + 1) pre.length
      = some (pre ++ b :: a :: post) := by
  induction pre with
  | nil => simp [listSwap]
  | cons c pre ih =>
    rw [listSwap] at ih ⊢
    rw [List.cons_append, List.length_cons]
    rw [show pre.length + 1 + 1 = (pre.length + 1) + 1 from rfl]
    rw [List.getElem?_cons_succ, List.getElem?_cons_succ]
    cases hx : (pre ++ a :: b :: post)[pre.length + 1]? with
    | none => rw [hx] at ih; cases hy : (pre ++ a :: b :: post)[pre.length]? <;> simp at ih
    | some x =>
      cases hy : (pre ++ a :: b :: post)[pre.length]? with
      | none => rw [hx, hy] at ih; simp at ih
      | some y =>
        rw [hx, hy] at ih
        simp only [Option.some.injEq] at ih
        simp only [List.set_cons_succ]
        rw [ih]
        simp

/-- Behaviour of the insertion-sort loop of `Node::insert_nonfull` on a
sorted prefix followed by the freshly pushed value and a suffix of
elements strictly greater than the value: the value bubbles to the border
between the elements `≤ v` and the elements `> v`. -/
theorem bubble_aux (v : α) : ∀ (ks : List α), ks.Sorted (· ≤ ·) →
    ∀ (suffix : List α), (∀ y ∈ suffix, v < y) →
    ∃ l r, ks = l ++ r ∧ (∀ y ∈ l, y ≤ v) ∧ (∀ y ∈ r, v < y) ∧
      bubble v (ks ++ v :: suffix) ks.length = some (l ++ v :: (r ++ suffix)) := by
  intro ks
  induction ks using List.reverseRecOn with
  | nil =>
    intro _ suffix _
    exact ⟨[], [], rfl, by simp, by simp, rfl⟩
  | append_singleton ks a ih =>
    intro hsorted suffix hsuffix
    have hks : ks.Sorted (· ≤ ·) := (List.pairwise_append.mp hsorted).1
    have hka : ∀ y ∈ ks, y ≤ a := by
      intro y hy
      exact (List.pairwise_append.mp hsorted).2.2 y hy a (by simp)
    have hgl : ((ks ++ [a]) ++ v :: suffix) = ks ++ a :: v :: suffix := by simp
    have hlen : (ks ++ [a]).length = ks.length + 1 := by simp
    rw [hgl, hlen]
    have hread : (ks ++ a :: v :: suffix)[ks.length]? = some a := by
      rw [List.getElem?_append_right (Nat.le_refl _)]
      simp
    by_cases hva : v < a
    · simp only [bubble, hread, if_pos hva, listSwap_adjacent ks suffix a v,
        Option.bind_eq_bind, Option.some_bind]
      obtain ⟨l, r, hlr, hlle, hrgt, hrec⟩ := ih hks (a :: suffix)
        (by
          intro y hy
          rcases List.mem_cons.mp hy with rfl | hy2
          · exact hva
          · exact hsuffix y hy2)
      refine ⟨l, r ++ [a], by rw [hlr, List.append_assoc], hlle, ?_, ?_⟩
      · intro y hy
        rcases List.mem_append.mp hy with hy2 | hy2
        · exact hrgt y hy2
        · rw [List.mem_singleton.mp hy2]
          exact hva
      · rw [hrec]
        simp
    · simp only [bubble, hread, if_neg hva]
      refine ⟨ks ++ [a], [], by simp, ?_, by simp, by simp⟩
      intro y hy
      rcases List.mem_append.mp hy with hy2 | hy2
      · exact le_trans (hka y hy2) (not_lt.mp hva)
      · rw [List.mem_singleton.mp hy2]
        exact not_lt.mp hva

/-- The leaf branch of `Node::insert_nonfull` produces a sorted
permutation of the old keys plus the new value. -/
theorem bubble_insert (v : α) (ks : List α) (hs : ks.Sorted (· ≤ ·)) :
    ∃ ks2, bubble v (ks ++ [v]) ks.length = some ks2 ∧
      ks2.Sorted (· ≤ ·) ∧ ks2.Perm (v :: ks) ∧ ks2.length = ks.length + 1 := by
  obtain ⟨l, r, hlr, hlle, hrgt, hrec⟩ := bubble_aux v ks hs [] (by simp)
  rw [List.append_nil] at hrec
  have hperm : (l ++ v :: r).Perm (v :: ks) := by
    rw [hlr]
    exact List.perm_middle
  refine ⟨l ++ v :: r, hrec, ?_, hperm, ?_⟩
  · refine List.pairwise_append.mpr ⟨?_, ?_, ?_⟩
    · subst hlr
      exact (List.pairwise_append.mp hs).1
    · refine List.sorted_cons.mpr ⟨fun b hb => le_of_lt (hrgt b hb), ?_⟩
      subst hlr
      exact (List.pairwise_append.mp hs).2.1
    · intro x hx b hb
      rcases List.mem_cons.mp hb with rfl | hb2
      · exact hlle x hx
      · exact le_trans (hlle x hx) (le_of_lt (hrgt b hb2))
  · rw [hperm.length_eq]
    simp

/-- The descending scan of the internal branch of `Node::insert_nonfull`:
starting at a valid index it returns an index `i` that is either `0` or
points at a key `< v`, with every key strictly right of `i` (up to the
start) at least `v`. -/
theorem scanDown_spec (keys : List α) (v : α) : ∀ (i0 : Nat), i0 < keys.length →
    ∃ i, scanDown keys v i0 = some i ∧ i ≤ i0 ∧
      (i = 0 ∨ ∃ k, keys[i]? = some k ∧ k < v) ∧
      (∀ j k, i < j → j ≤ i0 → keys[j]? = some k → v ≤ k) := by
  intro i0
  induction i0 with
  | zero =>
    intro _
    exact ⟨0, rfl, Nat.le_refl 0, Or.inl rfl, by omega⟩
  | succ i1 ih =>
    intro hlt
    obtain ⟨k, hk⟩ : ∃ k, keys[i1 + 1]? = some k :=
      ⟨keys[i1 + 1], List.getElem?_eq_getElem hlt⟩
    by_cases hvk : v ≤ k
    · simp only [scanDown, hk, if_pos hvk]
      obtain ⟨i, hscan, hle, hstop, hright⟩ := ih (by omega)
      refine ⟨i, hscan, by omega, hstop, ?_⟩
      intro j k2 hij hji1 hkj
      by_cases hj : j = i1 + 1
      · subst hj
        rw [hk] at hkj
        cases hkj
        exact hvk
      · exact hright j k2 hij (by omega) hkj
    · simp only [scanDown, hk, if_neg hvk]
      exact ⟨i1 + 1, rfl, Nat.le_refl _, Or.inr ⟨k, hk, not_le.mp hvk⟩, by omega⟩

/-- Two reads of a sorted list at increasing positions are ordered. -/
theorem sorted_getElem?_le {keys : List α} (hs : keys.Sorted (· ≤ ·))
    {i j : Nat} {k1 k2 : α} (hij : i ≤ j)
    (h1 : keys[i]? = some k1) (h2 : keys[j]? = some k2) : k1 ≤ k2 := by
  obtain ⟨hi, hik⟩ := List.getElem?_eq_some.mp h1
  obtain ⟨hj, hjk⟩ := List.getElem?_eq_some.mp h2
  rcases Nat.lt_or_ge i j with hlt | hge
  · have := (List.pairwise_iff_getElem.mp hs) i j hi hj hlt
    rw [hik, hjk] at this
    exact this
  · have hij2 : i = j := by omega
    subst hij2
    rw [hik.symm.trans hjk]

/-- Splitting a list at a valid position into prefix, the element there,
and the suffix. -/
theorem list_eq_take_cons_drop {β : Type} {l : List β} {d : Nat} {c : β} (h : l[d]? = some c) :
    l = l.take d ++ c :: l.drop (d + 1) := by
  obtain ⟨hd, hc⟩ := List.getElem?_eq_some.mp h
  conv_lhs => rw [← List.take_append_drop d l]
  rw [List.drop_eq_getElem_cons hd, hc]

/-- Reading the list produced by `Vec::insert` at position `d`. -/
theorem insertAt_getElem? (keys : List α) (d : Nat) (m : α) (hd : d ≤ keys.length)
    (j : Nat) :
    (keys.take d ++ m :: keys.drop d)[j]?
      = if j < d then keys[j]? else if j = d then some m else keys[j - 1]? := by
  have hlA : (keys.take d).length = d := by
    rw [List.length_take]
    omega
  rw [List.getElem?_append, hlA]
  by_cases h1 : j < d
  · rw [if_pos h1, if_pos h1, List.getElem?_take, if_pos h1]
  · rw [if_neg h1, if_neg h1]
    by_cases h2 : j = d
    · subst h2
      rw [if_pos rfl, Nat.sub_self]
      simp
    · rw [if_neg h2]
      have hj : j - d = (j - d - 1) + 1 := by omega
      rw [hj, List.getElem?_cons_succ, List.getElem?_drop]
      congr 1
      omega

/-- Length of the list produced by `Vec::insert`. -/
theorem insertAt_length (keys : List α) (d : Nat) (m : α) (hd : d ≤ keys.length) :
    (keys.take d ++ m :: keys.drop d).length = keys.length + 1 := by
  rw [List.length_append, List.length_cons, List.length_take, List.length_drop]
  omega

/-- The list produced by `Vec::insert` is a permutation of the element
consed onto the old list. -/
theorem insertAt_perm (keys : List α) (d : Nat) (m : α) :
    (keys.take d ++ m :: keys.drop d).Perm (m :: keys) := by
  refine List.perm_middle.trans ?_
  rw [List.take_append_drop]

/-- Sortedness of the list produced by `Vec::insert`, given that the new
element fits between its neighbours. -/
theorem sorted_insertAt (keys : List α) (d : Nat) (m : α) (hd : d ≤ keys.length)
    (hs : keys.Sorted (· ≤ ·))
    (hlow : ∀ j k, j + 1 = d → keys[j]? = some k → k ≤ m)
    (hhigh : ∀ k, keys[d]? = some k → m ≤ k) :
    (keys.take d ++ m :: keys.drop d).Sorted (· ≤ ·) := by
  have hmem_take : ∀ x ∈ keys.take d, ∃ j, j < d ∧ keys[j]? = some x := by
    intro x hx
    obtain ⟨j, hj⟩ := List.mem_iff_getElem?.mp hx
    rw [List.getElem?_take] at hj
    by_cases h1 : j < d
    · rw [if_pos h1] at hj
      exact ⟨j, h1, hj⟩
    · rw [if_neg h1] at hj
      cases hj
  have hmem_drop : ∀ x ∈ keys.drop d, ∃ j, d ≤ j ∧ keys[j]? = some x := by
    intro x hx
    obtain ⟨j, hj⟩ := List.mem_iff_getElem?.mp hx
    rw [List.getElem?_drop] at hj
    exact ⟨d + j, by omega, hj⟩
  have htakele : ∀ x ∈ keys.take d, x ≤ m := by
    intro x hx
    obtain ⟨j, hjd, hj⟩ := hmem_take x hx
    obtain ⟨hjlen, _⟩ := List.getElem?_eq_some.mp hj
    have hd1 : d - 1 < keys.length := by omega
    obtain ⟨k, hk⟩ : ∃ k, keys[d - 1]? = some k :=
      ⟨keys[d - 1], List.getElem?_eq_getElem hd1⟩
    exact le_trans (sorted_getElem?_le hs (by omega) hj hk)
      (hlow (d - 1) k (by omega) hk)
  have hdrople : ∀ x ∈ keys.drop d, m ≤ x := by
    intro x hx
    obtain ⟨j, hjd, hj⟩ := hmem_drop x hx
    obtain ⟨hjlen, _⟩ := List.getElem?_eq_some.mp hj
    have hd2 : d < keys.length := by omega
    obtain ⟨k, hk⟩ : ∃ k, keys[d]? = some k :=
      ⟨keys[d], List.getElem?_eq_getElem hd2⟩
    exact le_trans (hhigh k hk) (sorted_getElem?_le hs hjd hk hj)
  refine List.pairwise_append.mpr ⟨?_, ?_, ?_⟩
  · exact hs.sublist (List.take_sublist d keys)
  · refine List.sorted_cons.mpr ⟨hdrople, ?_⟩
    exact hs.sublist (List.drop_sublist d keys)
  · intro x hx b hb
    rcases List.mem_cons.mp hb with rfl | hb2
    · exact htakele x hx
    · exact le_trans (htakele x hx) (hdrople b hb2)

/-- Inserting the two halves of a split child: the updated-and-extended
child vector is the old one with `children[d]` replaced by the two new
nodes. -/
theorem set_insert_decomp : ∀ (children : List (Node α)) (d : Nat),
    d < children.length → ∀ (x y : Node α),
    (children.set d x).take (d + 1) ++ y :: (children.set d x).drop (d + 1)
      = children.take d ++ x :: y :: children.drop (d + 1) := by
  intro children
  induction children with
  | nil => intro d hd; simp at hd
  | cons c cs ih =>
    intro d hd x y
    cases d with
    | zero => simp
    | succ d2 =>
      have := ih d2 (by simpa using hd) x y
      simp only [List.set_cons_succ, List.take_succ_cons, List.drop_succ_cons,
        List.cons_append]
      rw [this]

/-- Reading the child vector after a split. -/
theorem insert2At_getElem? (ch : List (Node α)) (d : Nat) (x y : Node α)
    (hd : d < ch.length) (j : Nat) :
    (ch.take d ++ x :: y :: ch.drop (d + 1))[j]?
      = if j < d then ch[j]? else if j = d then some x
        else if j = d + 1 then some y else ch[j - 1]? := by
  have hlA : (ch.take d).length = d := by
    rw [List.length_take]
    omega
  rw [List.getElem?_append, hlA]
  by_cases h1 : j < d
  · rw [if_pos h1, if_pos h1, List.getElem?_take, if_pos h1]
  · rw [if_neg h1, if_neg h1]
    by_cases h2 : j = d
    · subst h2
      rw [if_pos rfl, Nat.sub_self]
      rfl
    · rw [if_neg h2]
      by_cases h3 : j = d + 1
      · subst h3
        rw [if_pos rfl, show d + 1 - d = 1 from by omega]
        simp
      · rw [if_neg h3]
        have hj : j - d = (j - d - 2) + 1 + 1 := by omega
        rw [hj, List.getElem?_cons_succ, List.getElem?_cons_succ, List.getElem?_drop]
        congr 1
        omega

/-- Length of the child vector after a split. -/
theorem insert2At_length (ch : List (Node α)) (d : Nat) (x y : Node α)
    (hd : d < ch.length) :
    (ch.take d ++ x :: y :: ch.drop (d + 1)).length = ch.length + 1 := by
  rw [List.length_append, List.length_cons, List.length_cons, List.length_take,
    List.length_drop]
  omega

/-- Assembly of the well-formedness and contents facts of the parent node
produced by `Node::split`, given the facts about the two halves. -/
theorem split_assemble (t count : Nat)
    (keys : List α) (children : List (Node α)) (d : Nat) (c : Node α)
    (m : α) (left2 right2 : Node α)
    (hkl : keys.length = count)
    (hcl : children.length = count + 1)
    (hroom : count + 2 ≤ 2 * t)
    (hsorted : keys.Sorted (· ≤ ·))
    (hwfall : ∀ x ∈ children, WF t x)
    (hlowSep : ∀ (j : Nat) (c2 : Node α) (x kv : α), children[j + 1]? = some c2 →
        x ∈ Node.elems c2 → keys[j]? = some kv → kv ≤ x)
    (hhighSep : ∀ (j : Nat) (c2 : Node α) (x kv : α), children[j]? = some c2 →
        x ∈ Node.elems c2 → keys[j]? = some kv → x ≤ kv)
    (hd : d ≤ count)
    (hc : children[d]? = some c)
    (hwfl : WF t left2) (hwfr : WF t right2)
    (hlem : ∀ x ∈ Node.elems left2, x ≤ m)
    (hrem : ∀ x ∈ Node.elems right2, m ≤ x)
    (hsubl : ∀ x ∈ Node.elems left2, x ∈ Node.elems c)
    (hsubr : ∀ x ∈ Node.elems right2, x ∈ Node.elems c)
    (hmc : m ∈ Node.elems c)
    (hdecompP : (Node.elems left2 ++ m :: Node.elems right2).Perm (Node.elems c)) :
    WF t (.mk false (count + 1) (keys.take d ++ m :: keys.drop d)
        (children.take d ++ left2 :: right2 :: children.drop (d + 1)) t) ∧
    (Node.elems (.mk false (count + 1) (keys.take d ++ m :: keys.drop d)
        (children.take d ++ left2 :: right2 :: children.drop (d + 1)) t)).Perm
      (Node.elems (.mk false count keys children t)) := by
  have hdlt : d < children.length := by omega
  have hdk : d ≤ keys.length := by omega
  have hk2 := insertAt_getElem? keys d m hdk
  have hc2 := insert2At_getElem? children d left2 right2 hdlt
  constructor
  · refine WF.internal (count + 1) _ _ ?_ (by omega) (by omega) ?_ ?_ ?_ ?_ ?_
    · rw [insertAt_length keys d m hdk, hkl]
    · rw [insert2At_length children d left2 right2 hdlt, hcl]
    · refine sorted_insertAt keys d m hdk hsorted ?_ ?_
      · intro j k hjd hkj
        refine hlowSep j c m k ?_ hmc hkj
        rw [hjd]
        exact hc
      · intro k hk
        exact hhighSep d c m k hc hmc hk
    · intro x hx
      rcases List.mem_append.mp hx with hx1 | hx1
      · exact hwfall x (List.mem_of_mem_take hx1)
      · rcases List.mem_cons.mp hx1 with rfl | hx2
        · exact hwfl
        · rcases List.mem_cons.mp hx2 with rfl | hx3
          · exact hwfr
          · exact hwfall x (List.mem_of_mem_drop hx3)
    · -- low separation
      intro j c2 x kv hgc2 hx hkv
      rw [hc2 (j + 1)] at hgc2
      rw [hk2 j] at hkv
      by_cases h1 : j + 1 < d
      · rw [if_pos h1] at hgc2
        rw [if_pos (by omega)] at hkv
        exact hlowSep j c2 x kv hgc2 hx hkv
      · rw [if_neg h1] at hgc2
        by_cases h2 : j + 1 = d
        · rw [if_pos h2] at hgc2
          cases hgc2
          rw [if_pos (by omega)] at hkv
          refine hlowSep j c x kv ?_ (hsubl x hx) hkv
          rw [h2]
          exact hc
        · rw [if_neg h2] at hgc2
          by_cases h3 : j + 1 = d + 1
          · rw [if_pos h3] at hgc2
            cases hgc2
            have hjd : j = d := by omega
            rw [if_neg (by omega), if_pos hjd] at hkv
            cases hkv
            exact hrem x hx
          · rw [if_neg h3] at hgc2
            have hj1 : j + 1 - 1 = j := by omega
            rw [hj1] at hgc2
            rw [if_neg (by omega), if_neg (by omega)] at hkv
            have hlow2 := hlowSep (j - 1) c2 x kv ?_ hx hkv
            · exact hlow2
            · rw [show j - 1 + 1 = j by omega]
              exact hgc2
    · -- high separation
      intro j c2 x kv hgc2 hx hkv
      rw [hc2 j] at hgc2
      rw [hk2 j] at hkv
      by_cases h1 : j < d
      · rw [if_pos h1] at hgc2
        rw [if_pos h1] at hkv
        exact hhighSep j c2 x kv hgc2 hx hkv
      · rw [if_neg h1] at hgc2
        rw [if_neg h1] at hkv
        by_cases h2 : j = d
        · rw [if_pos h2] at hgc2
          cases hgc2
          rw [if_pos h2] at hkv
          cases hkv
          exact hlem x hx
        · rw [if_neg h2] at hgc2
          rw [if_neg h2] at hkv
          by_cases h3 : j = d + 1
          · rw [if_pos h3] at hgc2
            cases hgc2
            have : j - 1 = d := by omega
            rw [this] at hkv
            exact hhighSep d c x kv hc (hsubr x hx) hkv
          · rw [if_neg h3] at hgc2
            exact hhighSep (j - 1) c2 x kv hgc2 hx hkv
  · -- permutation of contents
    have hch : children = children.take d ++ c :: children.drop (d + 1) :=
      list_eq_take_cons_drop hc
    rw [List.perm_iff_count]
    intro y
    have h1 : (keys.take d ++ m :: keys.drop d).count y = (m :: keys).count y :=
      (insertAt_perm keys d m).count_eq y
    have h2 : (Node.elems left2 ++ m :: Node.elems right2).count y = (Node.elems c).count y :=
      hdecompP.count_eq y
    have h3 : (Node.elemsList children).count y
        = (Node.elemsList (children.take d)).count y + (Node.elems c).count y
          + (Node.elemsList (children.drop (d + 1))).count y := by
      conv_lhs => rw [hch]
      rw [Node.elemsList_append, Node.elemsList_cons]
      simp [List.count_append]
      omega
    simp only [Node.elems_mk, Node.elemsList_append, Node.elemsList_cons,
      List.count_append, List.count_cons] at *
    rcases eq_or_ne m y with rfl | hne
    · simp at h1 h2 ⊢
      omega
    · simp [hne] at h1 h2 ⊢
      omega

/-- Indexed membership in the contents of a list of nodes. -/
theorem mem_elemsList_getElem {x : α} {l : List (Node α)} (h : x ∈ Node.elemsList l) :
    ∃ (j : Nat) (c2 : Node α), l[j]? = some c2 ∧ x ∈ Node.elems c2 := by
  obtain ⟨c2, hc2, hx⟩ := Node.mem_elemsList.mp h
  obtain ⟨j, hj⟩ := List.mem_iff_getElem?.mp hc2
  exact ⟨j, c2, hj, hx⟩

/-- The total size of a prefix or suffix of a child list is bounded by the
total size of the list. -/
theorem sizeList_take_drop_le (l : List (Node α)) (j : Nat) :
    Node.sizeList (l.take j) ≤ Node.sizeList l ∧
    Node.sizeList (l.drop j) ≤ Node.sizeList l := by
  have h := Node.sizeList_append (l.take j) (l.drop j)
  rw [List.take_append_drop] at h
  omega

/-- Full description of `Node::split` on a well-formed full child of a
node with sorted, separating keys. -/
theorem split_spec (t count : Nat) (ht : 2 ≤ t)
    (keys : List α) (children : List (Node α)) (d : Nat) (c : Node α)
    (hkl : keys.length = count)
    (hcl : children.length = count + 1)
    (hroom : count + 2 ≤ 2 * t)
    (hsorted : keys.Sorted (· ≤ ·))
    (hwfall : ∀ x ∈ children, WF t x)
    (hlowSep : ∀ (j : Nat) (c2 : Node α) (x kv : α), children[j + 1]? = some c2 →
        x ∈ Node.elems c2 → keys[j]? = some kv → kv ≤ x)
    (hhighSep : ∀ (j : Nat) (c2 : Node α) (x kv : α), children[j]? = some c2 →
        x ∈ Node.elems c2 → keys[j]? = some kv → x ≤ kv)
    (hd : d ≤ count)
    (hc : children[d]? = some c)
    (hcfull : c.count = 2 * t - 1) :
    ∃ (m : α) (left2 right2 : Node α),
      Node.split (.mk false count keys children t) d
        = some (.mk false (count + 1) (keys.take d ++ m :: keys.drop d)
            (children.take d ++ left2 :: right2 :: children.drop (d + 1)) t) ∧
      WF t (.mk false (count + 1) (keys.take d ++ m :: keys.drop d)
            (children.take d ++ left2 :: right2 :: children.drop (d + 1)) t) ∧
      WF t left2 ∧ WF t right2 ∧
      left2.count = t - 1 ∧ right2.count = t - 1 ∧
      left2.size ≤ c.size ∧ right2.size ≤ c.size ∧
      (Node.elems (.mk false (count + 1) (keys.take d ++ m :: keys.drop d)
            (children.take d ++ left2 :: right2 :: children.drop (d + 1)) t)).Perm
        (Node.elems (.mk false count keys children t)) := by
  have hwfcc := hwfall c (List.getElem?_mem hc)
  cases hwfcc with
  | leaf cc ck hckl hccb hcks =>
    have hccfull : cc = 2 * t - 1 := by simpa using hcfull
    have hcklen : ck.length = 2 * t - 1 := by omega
    have htm1 : t - 1 < ck.length := by omega
    obtain ⟨m, hm⟩ : ∃ m, ck[t - 1]? = some m :=
      ⟨ck[t - 1], List.getElem?_eq_getElem htm1⟩
    have hmc : m ∈ Node.elems (Node.mk true cc ck [] t) := by
      simp only [Node.elems_mk, Node.elemsList_nil, List.append_nil]
      exact List.getElem?_mem hm
    have hckdec : ck = ck.take (t - 1) ++ m :: ck.drop t := by
      have h0 := list_eq_take_cons_drop hm
      rw [show t - 1 + 1 = t by omega] at h0
      exact h0
    have hwfl : WF t (Node.mk true (t - 1) (ck.take (t - 1)) [] t) :=
      WF.leaf (t - 1) _ (by rw [List.length_take]; omega) (by omega)
        (hcks.sublist (List.take_sublist _ _))
    have hwfr : WF t (Node.mk true (t - 1) (ck.drop t) [] t) :=
      WF.leaf (t - 1) _ (by rw [List.length_drop]; omega) (by omega)
        (hcks.sublist (List.drop_sublist _ _))
    have hlem : ∀ x ∈ Node.elems (Node.mk true (t - 1) (ck.take (t - 1)) [] t), x ≤ m := by
      intro x hx
      simp only [Node.elems_mk, Node.elemsList_nil, List.append_nil] at hx
      obtain ⟨j, hj⟩ := List.mem_iff_getElem?.mp hx
      rw [List.getElem?_take] at hj
      by_cases h1 : j < t - 1
      · rw [if_pos h1] at hj
        exact sorted_getElem?_le hcks (by omega) hj hm
      · rw [if_neg h1] at hj
        cases hj
    have hrem : ∀ x ∈ Node.elems (Node.mk true (t - 1) (ck.drop t) [] t), m ≤ x := by
      intro x hx
      simp only [Node.elems_mk, Node.elemsList_nil, List.append_nil] at hx
      obtain ⟨j, hj⟩ := List.mem_iff_getElem?.mp hx
      rw [List.getElem?_drop] at hj
      exact sorted_getElem?_le hcks (by omega) hm hj
    have hsubl : ∀ x ∈ Node.elems (Node.mk true (t - 1) (ck.take (t - 1)) [] t),
        x ∈ Node.elems (Node.mk true cc ck [] t) := by
      intro x hx
      simp only [Node.elems_mk, Node.elemsList_nil, List.append_nil] at hx ⊢
      exact List.mem_of_mem_take hx
    have hsubr : ∀ x ∈ Node.elems (Node.mk true (t - 1) (ck.drop t) [] t),
        x ∈ Node.elems (Node.mk true cc ck [] t) := by
      intro x hx
      simp only [Node.elems_mk, Node.elemsList_nil, List.append_nil] at hx ⊢
      exact List.mem_of_mem_drop hx
    have hdecompP : (Node.elems (Node.mk true (t - 1) (ck.take (t - 1)) [] t)
        ++ m :: Node.elems (Node.mk true (t - 1) (ck.drop t) [] t)).Perm
          (Node.elems (Node.mk true cc ck [] t)) := by
      simp only [Node.elems_mk, Node.elemsList_nil, List.append_nil]
      rw [← hckdec]
    have hmain := split_assemble t count keys children d _ m _ _ hkl hcl hroom hsorted
      hwfall hlowSep hhighSep hd hc hwfl hwfr hlem hrem hsubl hsubr hmc hdecompP
    refine ⟨m, _, _, ?_, hmain.1, hwfl, hwfr, by simp, by simp, by simp, by simp, hmain.2⟩
    have e1 : checkedSub t 1 = some (t - 1) := by
      rw [checkedSub, if_pos (by omega : 1 ≤ t)]
    have e2 : splitOff ck t = some (ck.take t, ck.drop t) := by
      rw [splitOff, if_pos (by omega : t ≤ ck.length)]
    have e3 : vecPop (ck.take t) = some (m, ck.take (t - 1)) := by
      rw [vecPop, List.getLast?_eq_getElem?, List.length_take]
      rw [show min t ck.length - 1 = t - 1 by omega]
      rw [List.getElem?_take, if_pos (by omega : t - 1 < t), hm]
      rw [List.dropLast_eq_take, List.length_take]
      rw [show min t ck.length - 1 = t - 1 by omega, List.take_take]
      rw [show min (t - 1) t = t - 1 by omega]
    have e4 : vecInsertAt keys d m = some (keys.take d ++ m :: keys.drop d) := by
      rw [vecInsertAt, if_pos (by omega : d ≤ keys.length)]
    have e5 : vecInsertAt
        (children.set d (Node.mk true (t - 1) (ck.take (t - 1)) [] t)) (d + 1)
        (Node.mk true (t - 1) (ck.drop t) [] t)
        = some (children.take d ++ (Node.mk true (t - 1) (ck.take (t - 1)) [] t) ::
            (Node.mk true (t - 1) (ck.drop t) [] t) :: children.drop (d + 1)) := by
      rw [vecInsertAt,
        if_pos (by rw [List.length_set]; omega : d + 1 ≤ (children.set d _).length)]
      rw [set_insert_decomp children d (by omega)]
    rw [Node.split]
    simp only [Node.children_mk, Node.t_mk, Node.keys_mk, Node.count_mk, Node.leaf_mk,
      hc, e1, e2, e3, e4, e5, Option.bind_eq_bind, Option.some_bind, if_true]
  | internal cc ck cch hckl hcc1 hccb hcchl hcks hwfch hlowc hhighc =>
    have hccfull : cc = 2 * t - 1 := by simpa using hcfull
    have hcklen : ck.length = 2 * t - 1 := by omega
    have hcchlen : cch.length = 2 * t := by omega
    have htm1 : t - 1 < ck.length := by omega
    obtain ⟨m, hm⟩ : ∃ m, ck[t - 1]? = some m :=
      ⟨ck[t - 1], List.getElem?_eq_getElem htm1⟩
    have hmc : m ∈ Node.elems (Node.mk false cc ck cch t) := by
      simp only [Node.elems_mk]
      exact List.mem_append_left _ (List.getElem?_mem hm)
    have hckdec : ck = ck.take (t - 1) ++ m :: ck.drop t := by
      have h0 := list_eq_take_cons_drop hm
      rw [show t - 1 + 1 = t by omega] at h0
      exact h0
    have hwfl : WF t (Node.mk false (t - 1) (ck.take (t - 1)) (cch.take t) t) := by
      refine WF.internal (t - 1) _ _ (by rw [List.length_take]; omega) (by omega)
        (by omega) (by rw [List.length_take]; omega)
        (hcks.sublist (List.take_sublist _ _))
        (fun x hx => hwfch x (List.mem_of_mem_take hx)) ?_ ?_
      · intro j c2 x kv hc2 hx hkv
        rw [List.getElem?_take] at hc2 hkv
        by_cases h1 : j + 1 < t
        · rw [if_pos h1] at hc2
          by_cases h2 : j < t - 1
          · rw [if_pos h2] at hkv
            exact hlowc j c2 x kv hc2 hx hkv
          · rw [if_neg h2] at hkv
            cases hkv
        · rw [if_neg h1] at hc2
          cases hc2
      · intro j c2 x kv hc2 hx hkv
        rw [List.getElem?_take] at hc2 hkv
        by_cases h1 : j < t
        · rw [if_pos h1] at hc2
          by_cases h2 : j < t - 1
          · rw [if_pos h2] at hkv
            exact hhighc j c2 x kv hc2 hx hkv
          · rw [if_neg h2] at hkv
            cases hkv
        · rw [if_neg h1] at hc2
          cases hc2
    have hwfr : WF t (Node.mk false (t - 1) (ck.drop t) (cch.drop t) t) := by
      refine WF.internal (t - 1) _ _ (by rw [List.length_drop]; omega) (by omega)
        (by omega) (by rw [List.length_drop]; omega)
        (hcks.sublist (List.drop_sublist _ _))
        (fun x hx => hwfch x (List.mem_of_mem_drop hx)) ?_ ?_
      · intro j c2 x kv hc2 hx hkv
        rw [List.getElem?_drop] at hc2 hkv
        rw [show t + (j + 1) = (t + j) + 1 by omega] at hc2
        exact hlowc (t + j) c2 x kv hc2 hx hkv
      · intro j c2 x kv hc2 hx hkv
        rw [List.getElem?_drop] at hc2 hkv
        exact hhighc (t + j) c2 x kv hc2 hx hkv
    have hlem : ∀ x ∈ Node.elems (Node.mk false (t - 1) (ck.take (t - 1)) (cch.take t) t),
        x ≤ m := by
      intro x hx
      simp only [Node.elems_mk] at hx
      rcases List.mem_append.mp hx with hx | hx
      · obtain ⟨j, hj⟩ := List.mem_iff_getElem?.mp hx
        rw [List.getElem?_take] at hj
        by_cases h1 : j < t - 1
        · rw [if_pos h1] at hj
          exact sorted_getElem?_le hcks (by omega) hj hm
        · rw [if_neg h1] at hj
          cases hj
      · obtain ⟨j, c2, hj, hx2⟩ := mem_elemsList_getElem hx
        rw [List.getElem?_take] at hj
        by_cases h1 : j < t
        · rw [if_pos h1] at hj
          have hkj : j < ck.length := by omega
          have hkj2 : ck[j]? = some (ck[j]) := List.getElem?_eq_getElem hkj
          have hle := hhighc j c2 x (ck[j]) hj hx2 hkj2
          exact le_trans hle (sorted_getElem?_le hcks (by omega) hkj2 hm)
        · rw [if_neg h1] at hj
          cases hj
    have hrem : ∀ x ∈ Node.elems (Node.mk false (t - 1) (ck.drop t) (cch.drop t) t),
        m ≤ x := by
      intro x hx
      simp only [Node.elems_mk] at hx
      rcases List.mem_append.mp hx with hx | hx
      · obtain ⟨j, hj⟩ := List.mem_iff_getElem?.mp hx
        rw [List.getElem?_drop] at hj
        exact sorted_getElem?_le hcks (by omega) hm hj
      · obtain ⟨j, c2, hj, hx2⟩ := mem_elemsList_getElem hx
        rw [List.getElem?_drop] at hj
        have hjlt : j < t := by
          obtain ⟨hlt, -⟩ := List.getElem?_eq_some.mp hj
          omega
        have hkj : t + j - 1 < ck.length := by omega
        have hkj2 : ck[t + j - 1]? = some (ck[t + j - 1]) := List.getElem?_eq_getElem hkj
        rw [show t + j = (t + j - 1) + 1 by omega] at hj
        have hge := hlowc (t + j - 1) c2 x (ck[t + j - 1]) hj hx2 hkj2
        exact le_trans (sorted_getElem?_le hcks (by omega) hm hkj2) hge
    have hsubl : ∀ x ∈ Node.elems (Node.mk false (t - 1) (ck.take (t - 1)) (cch.take t) t),
        x ∈ Node.elems (Node.mk false cc ck cch t) := by
      intro x hx
      simp only [Node.elems_mk] at hx ⊢
      rcases List.mem_append.mp hx with hx | hx
      · exact List.mem_append_left _ (List.mem_of_mem_take hx)
      · obtain ⟨c2, hc2, hx2⟩ := Node.mem_elemsList.mp hx
        exact List.mem_append_right _
          (Node.mem_elemsList.mpr ⟨c2, List.mem_of_mem_take hc2, hx2⟩)
    have hsubr : ∀ x ∈ Node.elems (Node.mk false (t - 1) (ck.drop t) (cch.drop t) t),
        x ∈ Node.elems (Node.mk false cc ck cch t) := by
      intro x hx
      simp only [Node.elems_mk] at hx ⊢
      rcases List.mem_append.mp hx with hx | hx
      · exact List.mem_append_left _ (List.mem_of_mem_drop hx)
      · obtain ⟨c2, hc2, hx2⟩ := Node.mem_elemsList.mp hx
        exact List.mem_append_right _
          (Node.mem_elemsList.mpr ⟨c2, List.mem_of_mem_drop hc2, hx2⟩)
    have hchdec : Node.elemsList cch
        = Node.elemsList (cch.take t) ++ Node.elemsList (cch.drop t) := by
      rw [← Node.elemsList_append, List.take_append_drop]
    have hdecompP : (Node.elems (Node.mk false (t - 1) (ck.take (t - 1)) (cch.take t) t)
        ++ m :: Node.elems (Node.mk false (t - 1) (ck.drop t) (cch.drop t) t)).Perm
          (Node.elems (Node.mk false cc ck cch t)) := by
      simp only [Node.elems_mk]
      rw [List.perm_iff_count]
      intro y
      have hckc : ck.count y = (ck.take (t - 1)).count y
          + (m :: ck.drop t).count y := by
        rw [hckdec, List.count_append]
        rw [← hckdec]
      simp only [List.count_append, List.count_cons] at hckc ⊢
      rw [hchdec, List.count_append]
      rcases eq_or_ne m y with rfl | hne
      · simp at hckc ⊢
        omega
      · simp [hne] at hckc ⊢
        omega
    have hmain := split_assemble t count keys children d _ m _ _ hkl hcl hroom hsorted
      hwfall hlowSep hhighSep hd hc hwfl hwfr hlem hrem hsubl hsubr hmc hdecompP
    have hszl : Node.sizeList (cch.take t) ≤ Node.sizeList cch :=
      (sizeList_take_drop_le cch t).1
    have hszr : Node.sizeList (cch.drop t) ≤ Node.sizeList cch :=
      (sizeList_take_drop_le cch t).2
    refine ⟨m, Node.mk false (t - 1) (ck.take (t - 1)) (cch.take t) t,
      Node.mk false (t - 1) (ck.drop t) (cch.drop t) t,
      ?_, hmain.1, hwfl, hwfr, by simp, by simp,
      by simp only [Node.size_mk]; omega, by simp only [Node.size_mk]; omega, hmain.2⟩
    have e1 : checkedSub t 1 = some (t - 1) := by
      rw [checkedSub, if_pos (by omega : 1 ≤ t)]
    have e2 : splitOff ck t = some (ck.take t, ck.drop t) := by
      rw [splitOff, if_pos (by omega : t ≤ ck.length)]
    have e2b : splitOff cch t = some (cch.take t, cch.drop t) := by
      rw [splitOff, if_pos (by omega : t ≤ cch.length)]
    have e3 : vecPop (ck.take t) = some (m, ck.take (t - 1)) := by
      rw [vecPop, List.getLast?_eq_getElem?, List.length_take]
      rw [show min t ck.length - 1 = t - 1 by omega]
      rw [List.getElem?_take, if_pos (by omega : t - 1 < t), hm]
      rw [List.dropLast_eq_take, List.length_take]
      rw [show min t ck.length - 1 = t - 1 by omega, List.take_take]
      rw [show min (t - 1) t = t - 1 by omega]
    have e4 : vecInsertAt keys d m = some (keys.take d ++ m :: keys.drop d) := by
      rw [vecInsertAt, if_pos (by omega : d ≤ keys.length)]
    have e5 : vecInsertAt
        (children.set d (Node.mk false (t - 1) (ck.take (t - 1)) (cch.take t) t)) (d + 1)
        (Node.mk false (t - 1) (ck.drop t) (cch.drop t) t)
        = some (children.take d
            ++ (Node.mk false (t - 1) (ck.take (t - 1)) (cch.take t) t) ::
            (Node.mk false (t - 1) (ck.drop t) (cch.drop t) t) :: children.drop (d + 1)) := by
      rw [vecInsertAt,
        if_pos (by rw [List.length_set]; omega : d + 1 ≤ (children.set d _).length)]
      rw [set_insert_decomp children d (by omega)]
    rw [Node.split]
    simp only [Node.children_mk, Node.t_mk, Node.keys_mk, Node.count_mk, Node.leaf_mk,
      hc, e1, e2, e2b, e3, e4, e5, Option.bind_eq_bind, Option.some_bind,
      Bool.false_eq_true, if_false, if_true]

/-- Every well-formed node has at most `2 * t - 1` keys. -/
theorem WF.count_bound {t : Nat} {n : Node α} (h : WF t n) : n.count + 1 ≤ 2 * t := by
  cases h with
  | leaf cnt ks h1 h2 h3 => simpa using h2
  | internal cnt ks ch h1 h2 h3 h4 h5 h6 h7 h8 => simpa using h3

/-- Replacing one child by a node holding one extra value `v` adds `v` to
the contents of the child list, up to permutation. -/
theorem elemsList_set_perm (v : α) :
    ∀ (ch : List (Node α)) (i : Nat) (c c2 : Node α),
      ch[i]? = some c → (Node.elems c2).Perm (v :: Node.elems c) →
      (Node.elemsList (ch.set i c2)).Perm (v :: Node.elemsList ch) := by
  intro ch
  induction ch with
  | nil =>
    intro i c c2 hc _
    simp at hc
  | cons x xs ih =>
    intro i c c2 hc hp
    cases i with
    | zero =>
      rw [List.getElem?_cons_zero] at hc
      cases hc
      simp only [List.set_cons_zero, Node.elemsList_cons]
      exact hp.append_right _
    | succ i =>
      rw [List.getElem?_cons_succ] at hc
      simp only [List.set_cons_succ, Node.elemsList_cons]
      exact ((ih i c c2 hc hp).append_left (Node.elems x)).trans List.perm_middle

/-- Replacing the child at a correctly scanned index by a well-formed
node holding one extra value keeps an internal node well-formed and adds
the value to its contents. -/
theorem setChild_insert_WF (t cnt : Nat) (ks : List α) (ch : List (Node α))
    (v : α) (i : Nat) (c c2 : Node α)
    (hwf : WF t (.mk false cnt ks ch t))
    (hc : ch[i]? = some c)
    (hwfc2 : WF t c2)
    (hperm : (Node.elems c2).Perm (v :: Node.elems c))
    (hA : ∀ kv, 1 ≤ i → ks[i - 1]? = some kv → kv ≤ v)
    (hB : ∀ j kv, i ≤ j → ks[j]? = some kv → v ≤ kv) :
    WF t (.mk false cnt ks (ch.set i c2) t) ∧
    (Node.elems (.mk false cnt ks (ch.set i c2) t)).Perm
      (v :: Node.elems (.mk false cnt ks ch t)) := by
  have hilen : i < ch.length := (List.getElem?_eq_some.mp hc).1
  constructor
  · cases hwf with
    | internal _ _ _ hkl hc1 hcb hchl hsorted hwfall hlow hhigh =>
      refine WF.internal cnt ks _ hkl hc1 hcb (by rw [List.length_set]; exact hchl)
        hsorted ?_ ?_ ?_
      · intro x hx
        obtain ⟨j, hj⟩ := List.mem_iff_getElem?.mp hx
        rw [List.getElem?_set] at hj
        by_cases h1 : i = j
        · rw [if_pos h1, if_pos hilen] at hj
          cases hj
          exact hwfc2
        · rw [if_neg h1] at hj
          exact hwfall x (List.getElem?_mem hj)
      · intro j cx x kv hset hx hkv
        rw [List.getElem?_set] at hset
        by_cases h1 : i = j + 1
        · rw [if_pos h1, if_pos hilen] at hset
          cases hset
          rcases List.mem_cons.mp (hperm.mem_iff.mp hx) with rfl | hx2
          · refine hA kv (by omega) ?_
            rw [show i - 1 = j from by omega]
            exact hkv
          · exact hlow j c x kv (h1 ▸ hc) hx2 hkv
        · rw [if_neg h1] at hset
          exact hlow j cx x kv hset hx hkv
      · intro j cx x kv hset hx hkv
        rw [List.getElem?_set] at hset
        by_cases h1 : i = j
        · subst h1
          rw [if_pos rfl, if_pos hilen] at hset
          cases hset
          rcases List.mem_cons.mp (hperm.mem_iff.mp hx) with rfl | hx2
          · exact hB i kv (Nat.le_refl i) hkv
          · exact hhigh i c x kv hc hx2 hkv
        · rw [if_neg h1] at hset
          exact hhigh j cx x kv hset hx hkv
  · simp only [Node.elems_mk]
    exact ((elemsList_set_perm v ch i c c2 hc hperm).append_left ks).trans List.perm_middle

/-- `Node::insert_nonfull` on a well-formed nonfull node succeeds,
preserves well-formedness, and adds exactly the new value to the
stored contents (up to permutation). -/
theorem insertNonfull_spec (t : Nat) (ht : 2 ≤ t) (v : α) :
    ∀ (fuel : Nat) (n : Node α), WF t n → n.count + 2 ≤ 2 * t →
      n.size ≤ fuel →
      ∃ n2, Node.insertNonfullFuel fuel n v = some n2 ∧ WF t n2 ∧
        (Node.elems n2).Perm (v :: Node.elems n) := by
  intro fuel
  induction fuel with
  | zero =>
    intro n _ _ hsz
    have := Node.size_pos n
    omega
  | succ fuel ih =>
    intro n hwf hroom hsz
    cases hwf with
    | leaf cnt ks hkl hcb hsorted =>
      simp only [Node.count_mk] at hroom
      obtain ⟨ks2, hbub, hs2, hp2, hl2⟩ := bubble_insert v ks hsorted
      rw [hkl] at hbub hl2
      refine ⟨.mk true (cnt + 1) ks2 [] t, ?_, ?_, ?_⟩
      · rw [Node.insertNonfullFuel]
        simp only [Node.leaf_mk, if_true, Node.keys_mk, Node.count_mk,
          Option.bind_eq_bind, hbub, Option.some_bind, Node.withKeys_mk, Node.withCount_mk]
      · exact WF.leaf (cnt + 1) ks2 (by omega) (by omega) hs2
      · simp only [Node.elems_mk, Node.elemsList_nil, List.append_nil]
        exact hp2
    | internal cnt ks ch hkl hc1 hcb hchl hsorted hwfall hlow hhigh =>
      simp only [Node.count_mk] at hroom
      simp only [Node.size_mk] at hsz
      have hi0 : checkedSub cnt 1 = some (cnt - 1) := by
        rw [checkedSub, if_pos (by omega : 1 ≤ cnt)]
      obtain ⟨i1, hscan, hi1le, hstop, hright⟩ :=
        scanDown_spec ks v (cnt - 1) (by omega)
      have hi1lt : i1 < ks.length := by omega
      obtain ⟨k1, hk1⟩ : ∃ k1, ks[i1]? = some k1 :=
        ⟨ks[i1], List.getElem?_eq_getElem hi1lt⟩
      obtain ⟨i2, hifeq, hi2cnt, hA, hB⟩ :
          ∃ i2, (if k1 < v then i1 + 1 else i1) = i2 ∧ i2 ≤ cnt ∧
            (∀ kv, 1 ≤ i2 → ks[i2 - 1]? = some kv → kv ≤ v) ∧
            (∀ j kv, i2 ≤ j → ks[j]? = some kv → v ≤ kv) := by
        by_cases hk1v : k1 < v
        · refine ⟨i1 + 1, if_pos hk1v, by omega, ?_, ?_⟩
          · intro kv _ hkv
            rw [Nat.add_sub_cancel, hk1] at hkv
            cases hkv
            exact le_of_lt hk1v
          · intro j kv hij hkv
            have hjlen : j < ks.length := (List.getElem?_eq_some.mp hkv).1
            exact hright j kv (by omega) (by omega) hkv
        · refine ⟨i1, if_neg hk1v, by omega, ?_, ?_⟩
          · have hi10 : i1 = 0 := by
              rcases hstop with h | ⟨k, hk, hkv⟩
              · exact h
              · rw [hk1] at hk
                cases hk
                exact absurd hkv hk1v
            intro kv h1 _
            exact absurd h1 (by omega)
          · intro j kv hij hkv
            rcases Nat.eq_or_lt_of_le hij with rfl | hlt
            · rw [hk1] at hkv
              cases hkv
              exact not_lt.mp hk1v
            · have hjlen : j < ks.length := (List.getElem?_eq_some.mp hkv).1
              exact hright j kv (by omega) (by omega) hkv
      have hi2ch : i2 < ch.length := by omega
      obtain ⟨c, hcget⟩ : ∃ c, ch[i2]? = some c := ⟨ch[i2], List.getElem?_eq_getElem hi2ch⟩
      have hwfc := hwfall c (List.getElem?_mem hcget)
      have hfull_eval : Node.is_full (Node.mk false cnt ks ch t) i2
          = some (decide (c.count = 2 * t - 1)) := by
        rw [Node.is_full, checkedSub]
        simp only [Node.children_mk, Node.t_mk, hcget, Option.bind_eq_bind,
          Option.some_bind, if_pos (show 1 ≤ 2 * t by omega)]
      have hcsize : c.size ≤ Node.sizeList ch := Node.size_le_of_getElem? hcget
      by_cases hfull : c.count = 2 * t - 1
      · obtain ⟨m, left2, right2, heval, hwfP, hwfl, hwfr, hcl2, hcr2, hszl, hszr, hpermP⟩ :=
          split_spec t cnt ht ks ch i2 c hkl hchl hroom hsorted hwfall hlow hhigh
            hi2cnt hcget hfull
        have hki2 : i2 ≤ ks.length := by omega
        have hk2 : (ks.take i2 ++ m :: ks.drop i2)[i2]? = some m := by
          rw [insertAt_getElem? ks i2 m hki2, if_neg (by omega), if_pos rfl]
        by_cases hmv : m < v
        · have hcget3 : (ch.take i2 ++ left2 :: right2 :: ch.drop (i2 + 1))[i2 + 1]?
              = some right2 := by
            rw [insert2At_getElem? ch i2 left2 right2 hi2ch, if_neg (by omega),
              if_neg (by omega), if_pos rfl]
          have hA3 : ∀ kv, 1 ≤ i2 + 1 →
              (ks.take i2 ++ m :: ks.drop i2)[i2 + 1 - 1]? = some kv → kv ≤ v := by
            intro kv _ hkv
            rw [Nat.add_sub_cancel, hk2] at hkv
            cases hkv
            exact le_of_lt hmv
          have hB3 : ∀ j kv, i2 + 1 ≤ j →
              (ks.take i2 ++ m :: ks.drop i2)[j]? = some kv → v ≤ kv := by
            intro j kv hij hkv
            rw [insertAt_getElem? ks i2 m hki2, if_neg (by omega), if_neg (by omega)] at hkv
            exact hB (j - 1) kv (by omega) hkv
          obtain ⟨c2, hrec, hwfc2, hpc2⟩ := ih right2 hwfr (by omega) (by omega)
          obtain ⟨hwf2, hperm2⟩ := setChild_insert_WF t (cnt + 1)
            (ks.take i2 ++ m :: ks.drop i2) (ch.take i2 ++ left2 :: right2 :: ch.drop (i2 + 1))
            v (i2 + 1) right2 c2 hwfP hcget3 hwfc2 hpc2 hA3 hB3
          refine ⟨_, ?_, hwf2, hperm2.trans (hpermP.cons v)⟩
          rw [Node.insertNonfullFuel]
          simp only [Node.leaf_mk, Bool.false_eq_true, if_false, Node.count_mk, Node.keys_mk,
            Node.children_mk, hi0, hscan, hk1, hifeq, hfull_eval, Option.bind_eq_bind,
            Option.some_bind, decide_eq_true_eq, if_pos hfull, heval, hk2,
            if_pos hmv, hcget3, hrec, Node.setChild_mk]
        · have hcget3 : (ch.take i2 ++ left2 :: right2 :: ch.drop (i2 + 1))[i2]?
              = some left2 := by
            rw [insert2At_getElem? ch i2 left2 right2 hi2ch, if_neg (by omega), if_pos rfl]
          have hA3 : ∀ kv, 1 ≤ i2 →
              (ks.take i2 ++ m :: ks.drop i2)[i2 - 1]? = some kv → kv ≤ v := by
            intro kv h1 hkv
            rw [insertAt_getElem? ks i2 m hki2, if_pos (by omega)] at hkv
            exact hA kv h1 hkv
          have hB3 : ∀ j kv, i2 ≤ j →
              (ks.take i2 ++ m :: ks.drop i2)[j]? = some kv → v ≤ kv := by
            intro j kv hij hkv
            rcases Nat.eq_or_lt_of_le hij with rfl | hlt
            · rw [hk2] at hkv
              cases hkv
              exact not_lt.mp hmv
            · rw [insertAt_getElem? ks i2 m hki2, if_neg (by omega), if_neg (by omega)] at hkv
              exact hB (j - 1) kv (by omega) hkv
          obtain ⟨c2, hrec, hwfc2, hpc2⟩ := ih left2 hwfl (by omega) (by omega)
          obtain ⟨hwf2, hperm2⟩ := setChild_insert_WF t (cnt + 1)
            (ks.take i2 ++ m :: ks.drop i2) (ch.take i2 ++ left2 :: right2 :: ch.drop (i2 + 1))
            v i2 left2 c2 hwfP hcget3 hwfc2 hpc2 hA3 hB3
          refine ⟨_, ?_, hwf2, hperm2.trans (hpermP.cons v)⟩
          rw [Node.insertNonfullFuel]
          simp only [Node.leaf_mk, Bool.false_eq_true, if_false, Node.count_mk, Node.keys_mk,
            Node.children_mk, hi0, hscan, hk1, hifeq, hfull_eval, Option.bind_eq_bind,
            Option.some_bind, decide_eq_true_eq, if_pos hfull, heval, hk2,
            if_neg hmv, hcget3, hrec, Node.setChild_mk]
      · have hcb2 : c.count + 1 ≤ 2 * t := hwfc.count_bound
        obtain ⟨c2, hrec, hwfc2, hpc2⟩ := ih c hwfc (by omega) (by omega)
        obtain ⟨hwf2, hperm2⟩ := setChild_insert_WF t cnt ks ch v i2 c c2
          (WF.internal cnt ks ch hkl hc1 hcb hchl hsorted hwfall hlow hhigh)
          hcget hwfc2 hpc2 hA hB
        refine ⟨.mk false cnt ks (ch.set i2 c2) t, ?_, hwf2, hperm2⟩
        rw [Node.insertNonfullFuel]
        simp only [Node.leaf_mk, Bool.false_eq_true, if_false, Node.count_mk, Node.keys_mk,
          Node.children_mk, hi0, hscan, hk1, hifeq, hfull_eval, hcget, hrec,
          Option.bind_eq_bind, Option.some_bind, decide_eq_true_eq, if_neg hfull,
          Node.setChild_mk]

/-- The empty leaf root produced by `BTree::new` is well-formed. -/
theorem WF_leafNode (t : Nat) (ht : 1 ≤ t) : WF t (Node.leafNode (α := α) t) :=
  WF.leaf 0 [] rfl (by omega) (by simp)

/-- `BTree::insert` on a tree with a well-formed root succeeds, keeps the
root well-formed, and adds exactly the new value to the contents. -/
theorem BTree.insert_spec (t : Nat) (ht : 2 ≤ t) (v : α) (root : Node α)
    (hwf : WF t root) :
    ∃ root2, BTree.insert ⟨root, t⟩ v = some ⟨root2, t⟩ ∧ WF t root2 ∧
      (Node.elems root2).Perm (v :: Node.elems root) := by
  have hbound : checkedSub (2 * t) 1 = some (2 * t - 1) := by
    rw [checkedSub, if_pos (by omega : 1 ≤ 2 * t)]
  by_cases hfull : root.count = 2 * t - 1
  · have hwfall : ∀ x ∈ [root], WF t x := by
      intro x hx
      rw [List.mem_singleton.mp hx]
      exact hwf
    obtain ⟨m, left2, right2, heval, hwfP, hwfl, hwfr, hcl2, hcr2, hszl, hszr, hpermP⟩ :=
      split_spec t 0 ht [] [root] 0 root rfl rfl (by omega) (by simp) hwfall
        (by intro j c2 x kv _ _ hkv; simp at hkv)
        (by intro j c2 x kv _ _ hkv; simp at hkv)
        (Nat.le_refl 0) (by simp) hfull
    rw [show Node.elems (Node.mk false 0 [] [root] t) = Node.elems root from by simp]
      at hpermP
    obtain ⟨r2, hrec, hwf2, hp2⟩ := insertNonfull_spec t ht v _ _ hwfP
      (by simp only [Node.count_mk]; omega) (Nat.le_refl _)
    refine ⟨r2, ?_, hwf2, hp2.trans (hpermP.cons v)⟩
    rw [BTree.insert]
    simp only [hbound, Option.bind_eq_bind, Option.some_bind,
      if_neg (not_not_intro hfull), heval, Node.insert_nonfull, hrec]
  · obtain ⟨r2, hrec, hwf2, hp2⟩ := insertNonfull_spec t ht v root.size root hwf
      (by have := hwf.count_bound; omega) (Nat.le_refl _)
    refine ⟨r2, ?_, hwf2, hp2⟩
    rw [BTree.insert]
    simp only [hbound, Option.bind_eq_bind, Option.some_bind, if_pos hfull,
      Node.insert_nonfull, hrec]

/-- A whole sequence of `BTree::insert` calls on a well-formed root
succeeds, keeps the root well-formed, and the final contents are the
inserted values plus the initial contents, up to permutation. -/
theorem insertAll_spec (t : Nat) (ht : 2 ≤ t) :
    ∀ (vs : List α) (root : Node α), WF t root →
      ∃ root2, insertAll ⟨root, t⟩ vs = some ⟨root2, t⟩ ∧ WF t root2 ∧
        (Node.elems root2).Perm (vs ++ Node.elems root) := by
  intro vs
  induction vs with
  | nil =>
    intro root hwf
    exact ⟨root, rfl, hwf, by simp⟩
  | cons v vs ih =>
    intro root hwf
    obtain ⟨r1, hins, hwf1, hp1⟩ := BTree.insert_spec t ht v root hwf
    obtain ⟨r2, hall, hwf2, hp2⟩ := ih r1 hwf1
    refine ⟨r2, ?_, hwf2, hp2.trans ((hp1.append_left vs).trans List.perm_middle)⟩
    rw [insertAll, List.foldlM_cons, hins]
    rw [insertAll] at hall
    simp only [Option.bind_eq_bind, Option.some_bind]
    exact hall

/-- The loop of `Node::to_vec` over a well-formed internal node's
children and keys, starting at index `i` with `r` iterations left:
it succeeds, returns the contents of the suffix from `i` on (interleaved,
hence a permutation), sorted, and bounded below by the key left of `i`. -/
theorem toVecGo_spec (t fuel cnt : Nat) (ks : List α) (ch : List (Node α))
    (hkl : ks.length = cnt) (hchl : ch.length = cnt + 1)
    (hwfall : ∀ c ∈ ch, WF t c)
    (hsorted : ks.Sorted (· ≤ ·))
    (hlow : ∀ (j : Nat) (c : Node α) (x kv : α), ch[j + 1]? = some c →
        x ∈ Node.elems c → ks[j]? = some kv → kv ≤ x)
    (hhigh : ∀ (j : Nat) (c : Node α) (x kv : α), ch[j]? = some c →
        x ∈ Node.elems c → ks[j]? = some kv → x ≤ kv)
    (hfuel : Node.sizeList ch ≤ fuel)
    (hrec : ∀ (c : Node α), WF t c → c.size ≤ fuel →
        ∃ l, Node.toVecFuel fuel c = some l ∧ l.Perm (Node.elems c) ∧ l.Sorted (· ≤ ·)) :
    ∀ (r i : Nat), i + r = cnt + 1 → 1 ≤ r →
      ∃ l, Node.toVecGo (Node.toVecFuel fuel) ch ks i r = some l ∧
        l.Perm (Node.elemsList (ch.drop i) ++ ks.drop i) ∧ l.Sorted (· ≤ ·) ∧
        (∀ x ∈ l, ∀ kv, 1 ≤ i → ks[i - 1]? = some kv → kv ≤ x) := by
  intro r
  induction r with
  | zero =>
    intro i _ h1
    exact absurd h1 (by omega)
  | succ r ihr =>
    intro i hir _
    have hich : i < ch.length := by omega
    obtain ⟨c, hcget⟩ : ∃ c, ch[i]? = some c := ⟨ch[i], List.getElem?_eq_getElem hich⟩
    have hwfc := hwfall c (List.getElem?_mem hcget)
    obtain ⟨rest, hresteval, hrestP, hrestS⟩ := hrec c hwfc
      (le_trans (Node.size_le_of_getElem? hcget) hfuel)
    by_cases hr0 : r = 0
    · subst hr0
      have hicnt : i = cnt := by omega
      refine ⟨rest, ?_, ?_, hrestS, ?_⟩
      · rw [Node.toVecGo]
        simp only [hcget, hresteval, Option.bind_eq_bind, Option.some_bind, if_pos rfl, if_true]
      · have hdropch : ch.drop i = [c] := by
          have h0 := List.getElem?_eq_getElem hich
          rw [hcget] at h0
          cases h0
          rw [List.drop_eq_getElem_cons hich, show i + 1 = ch.length from by omega,
            List.drop_length]
        have hdropks : ks.drop i = [] := by
          rw [show i = ks.length from by omega, List.drop_length]
        rw [hdropch, hdropks]
        simpa using hrestP
      · intro x hx kv h1 hkv
        exact hlow (i - 1) c x kv
          (by rw [show i - 1 + 1 = i from by omega]; exact hcget)
          (hrestP.mem_iff.mp hx) hkv
    · have hicnt : i < cnt := by omega
      obtain ⟨k, hkget⟩ : ∃ k, ks[i]? = some k :=
        ⟨ks[i], List.getElem?_eq_getElem (by omega)⟩
      obtain ⟨tail, htaileval, htailP, htailS, htailLB⟩ := ihr (i + 1) (by omega) (by omega)
      have hkget1 : ks[i + 1 - 1]? = some k := by
        rw [Nat.add_sub_cancel]
        exact hkget
      refine ⟨rest ++ k :: tail, ?_, ?_, ?_, ?_⟩
      · rw [Node.toVecGo]
        simp only [hcget, hresteval, hkget, htaileval, Option.bind_eq_bind,
          Option.some_bind, if_neg hr0]
      · have hdropch : ch.drop i = c :: ch.drop (i + 1) := by
          have h0 := List.getElem?_eq_getElem hich
          rw [hcget] at h0
          cases h0
          exact List.drop_eq_getElem_cons hich
        have hdropks : ks.drop i = k :: ks.drop (i + 1) := by
          have hiks : i < ks.length := by omega
          have h0 := List.getElem?_eq_getElem hiks
          rw [hkget] at h0
          cases h0
          exact List.drop_eq_getElem_cons hiks
        rw [hdropch, hdropks, List.perm_iff_count]
        intro y
        have h1 := hrestP.count_eq y
        have h2 := htailP.count_eq y
        simp only [Node.elemsList_cons, List.count_append, List.count_cons] at h1 h2 ⊢
        rcases eq_or_ne k y with rfl | hne
        · simp at h1 h2 ⊢
          omega
        · simp [hne] at h1 h2 ⊢
          omega
      · refine List.pairwise_append.mpr ⟨hrestS, ?_, ?_⟩
        · refine List.sorted_cons.mpr ⟨?_, htailS⟩
          intro b hb
          exact htailLB b hb k (by omega) hkget1
        · intro x hx b hb
          have hxk : x ≤ k := hhigh i c x k hcget (hrestP.mem_iff.mp hx) hkget
          rcases List.mem_cons.mp hb with rfl | hb2
          · exact hxk
          · exact le_trans hxk (htailLB b hb2 k (by omega) hkget1)
      · intro x hx kv h1 hkv
        have hkk : kv ≤ k := sorted_getElem?_le hsorted (by omega) hkv hkget
        rcases List.mem_append.mp hx with hx | hx
        · exact hlow (i - 1) c x kv
            (by rw [show i - 1 + 1 = i from by omega]; exact hcget)
            (hrestP.mem_iff.mp hx) hkv
        · rcases List.mem_cons.mp hx with rfl | hx2
          · exact hkk
          · exact le_trans hkk (htailLB x hx2 k (by omega) hkget1)

/-- `Node::to_vec` on a well-formed node succeeds and returns a sorted
permutation of the stored contents. -/
theorem toVecFuel_spec (t : Nat) :
    ∀ (fuel : Nat) (n : Node α), WF t n → n.size ≤ fuel →
      ∃ l, Node.toVecFuel fuel n = some l ∧ l.Perm (Node.elems n) ∧ l.Sorted (· ≤ ·) := by
  intro fuel
  induction fuel with
  | zero =>
    intro n _ hsz
    have := Node.size_pos n
    omega
  | succ fuel ih =>
    intro n hwf hsz
    cases hwf with
    | leaf cnt ks hkl hcb hsorted =>
      refine ⟨ks, ?_, ?_, hsorted⟩
      · rw [Node.toVecFuel]
        simp
      · simp only [Node.elems_mk, Node.elemsList_nil, List.append_nil]
        exact List.Perm.refl ks
    | internal cnt ks ch hkl hc1 hcb hchl hsorted hwfall hlow hhigh =>
      simp only [Node.size_mk] at hsz
      obtain ⟨l, heval, hP, hS, _⟩ := toVecGo_spec t fuel cnt ks ch hkl hchl hwfall hsorted
        hlow hhigh (by omega) ih (cnt + 1) 0 (by omega) (by omega)
      refine ⟨l, ?_, ?_, hS⟩
      · rw [Node.toVecFuel]
        simp only [Node.leaf_mk, Bool.false_eq_true, if_false, Node.children_mk,
          Node.keys_mk, Node.count_mk]
        exact heval
      · simp only [Node.elems_mk]
        refine hP.trans ?_
        simp only [List.drop_zero]
        exact List.perm_append_comm

/-- Well-formedness implies the count/length synchronization property. -/
theorem WF.synced {t : Nat} {n : Node α} (h : WF t n) : Synced n := by
  induction h with
  | leaf cnt ks hkl hcb hsorted =>
    exact Synced.mk true cnt ks [] t hkl (by intro h; cases h) (by intro x hx; cases hx)
  | internal cnt ks ch hkl hc1 hcb hchl hsorted hwfall hlow hhigh ih =>
    exact Synced.mk false cnt ks ch t hkl (fun _ => hchl) ih

/-- Well-formedness implies that every node's keys are sorted. -/
theorem WF.keysSortedRec {t : Nat} {n : Node α} (h : WF t n) : KeysSortedRec n := by
  induction h with
  | leaf cnt ks hkl hcb hsorted =>
    exact KeysSortedRec.mk true cnt ks [] t hsorted (by intro x hx; cases hx)
  | internal cnt ks ch hkl hc1 hcb hchl hsorted hwfall hlow hhigh ih =>
    exact KeysSortedRec.mk false cnt ks ch t hsorted ih

/-- C4: for every `t ≥ 2` and every finite sequence of values inserted
(in any order, duplicates allowed) into `new(t)` with no deletions,
`to_sequence()` succeeds and returns a non-decreasing sequence. -/
theorem claim_C4_to_sequence_sorted_after_inserts (t : Nat) (ht : 2 ≤ t) (vs : List α) :
    ∃ (tr : BTree α) (l : List α),
      insertAll (BTree.new α t) vs = some tr ∧
      BTree.to_vec tr = some l ∧ l.Sorted (· ≤ ·) := by
  obtain ⟨root2, hall, hwf2, hperm⟩ :=
    insertAll_spec t ht vs (Node.leafNode t) (WF_leafNode t (by omega))
  obtain ⟨l, hvec, hP, hS⟩ := toVecFuel_spec t root2.size root2 hwf2 (Nat.le_refl _)
  exact ⟨⟨root2, t⟩, l, hall, hvec, hS⟩

/-- C5: for every `t ≥ 2` and every sequence of `n` insertions
(duplicates counted separately) into `new(t)` with no deletions,
`to_sequence()` succeeds and has length exactly `n`. -/
theorem claim_C5_to_sequence_length_after_inserts (t : Nat) (ht : 2 ≤ t) (vs : List α) :
    ∃ (tr : BTree α) (l : List α),
      insertAll (BTree.new α t) vs = some tr ∧
      BTree.to_vec tr = some l ∧ l.length = vs.length := by
  obtain ⟨root2, hall, hwf2, hperm⟩ :=
    insertAll_spec t ht vs (Node.leafNode t) (WF_leafNode t (by omega))
  obtain ⟨l, hvec, hP, hS⟩ := toVecFuel_spec t root2.size root2 hwf2 (Nat.le_refl _)
  refine ⟨⟨root2, t⟩, l, hall, hvec, ?_⟩
  rw [hP.length_eq, hperm.length_eq, List.length_append]
  simp [Node.leafNode]

/-- C10 (amended to the insert-only histories it concerns): after every
sequence of insertions into `new(t)` with `t ≥ 2`, every node satisfies
`keys.len() == count` and every internal node has `count + 1` children. -/
theorem claim_C10_count_tracks_keys_after_inserts (t : Nat) (ht : 2 ≤ t) (vs : List α) :
    ∃ tr : BTree α, insertAll (BTree.new α t) vs = some tr ∧ Synced tr.root := by
  obtain ⟨root2, hall, hwf2, _⟩ :=
    insertAll_spec t ht vs (Node.leafNode t) (WF_leafNode t (by omega))
  exact ⟨⟨root2, t⟩, hall, hwf2.synced⟩

/-- C8 (amended): after every sequence of insertions into `new(t)` with
`t ≥ 2`, the keys within every node are sorted non-decreasingly. -/
theorem claim_C8_sorted_in_each_node_after_inserts (t : Nat) (ht : 2 ≤ t) (vs : List α) :
    ∃ tr : BTree α, insertAll (BTree.new α t) vs = some tr ∧ KeysSortedRec tr.root := by
  obtain ⟨root2, hall, hwf2, _⟩ :=
    insertAll_spec t ht vs (Node.leafNode t) (WF_leafNode t (by omega))
  exact ⟨⟨root2, t⟩, hall, hwf2.keysSortedRec⟩

/-- Witness for C4: `t = 2`, inserting `[3, 1, 2, 2, 0]`. -/
theorem claim_C4_to_sequence_sorted_after_inserts_witness :
    2 ≤ 2 ∧ ∃ (tr : BTree Int) (l : List Int),
      insertAll (BTree.new Int 2) [3, 1, 2, 2, 0] = some tr ∧
      BTree.to_vec tr = some l ∧ l.Sorted (· ≤ ·) :=
  ⟨by decide, claim_C4_to_sequence_sorted_after_inserts 2 (by decide) [3, 1, 2, 2, 0]⟩

/-- Witness for C5: `t = 2`, inserting `[5, 5, 5, 1]`. -/
theorem claim_C5_to_sequence_length_after_inserts_witness :
    2 ≤ 2 ∧ ∃ (tr : BTree Int) (l : List Int),
      insertAll (BTree.new Int 2) [5, 5, 5, 1] = some tr ∧
      BTree.to_vec tr = some l ∧ l.length = [5, 5, 5, 1].length :=
  ⟨by decide, claim_C5_to_sequence_length_after_inserts 2 (by decide) [5, 5, 5, 1]⟩

/-- Witness for C10: `t = 3`, inserting the demo sequence of `main()`. -/
theorem claim_C10_count_tracks_keys_after_inserts_witness :
    2 ≤ 3 ∧ ∃ tr : BTree Int,
      insertAll (BTree.new Int 3) [1, 2, -1, 2, 5, 100, -10, 0, 124, 4] = some tr ∧
      Synced tr.root :=
  ⟨by decide, claim_C10_count_tracks_keys_after_inserts 3 (by decide)
    [1, 2, -1, 2, 5, 100, -10, 0, 124, 4]⟩

/-- Witness for C8 (amended): `t = 2`, inserting `[4, 2, 7, 2]`. -/
theorem claim_C8_sorted_in_each_node_after_inserts_witness :
    2 ≤ 2 ∧ ∃ tr : BTree Int,
      insertAll (BTree.new Int 2) [4, 2, 7, 2] = some tr ∧ KeysSortedRec tr.root :=
  ⟨by decide, claim_C8_sorted_in_each_node_after_inserts 2 (by decide) [4, 2, 7, 2]⟩
